import Mathlib

/-!
# Circle-OpenMP: Taylor-series circle sampler, serial and OpenMP variants

A shallow embedding of `src/Q2_OpenMP.cpp`.

Modelling conventions.

* `double` values are elements of an ordered field `K` and `double` arithmetic
  is exact: `+`, `*`, `/` are the field operations.  Instantiating `K := ℚ`
  makes every definition executable; the theorems are stated over `K := ℝ`.
* `float` values are the elements of `K` in the image of `static_cast_float`,
  which rounds to the nearest single-precision (binary32) value, ties to the
  even significand, with gradual underflow; overflow to infinity (magnitude
  `2^128` and above) is not modelled.
* `pow(b, n)` with an `int` exponent `n ≥ 0` is `b ^ n` (so `pow(0, 0) = 1`), and
  `tgamma` is only ever called at a positive integer `n`, where it is `(n-1)!`.
* A sequential `for` loop is a left fold over `List.range`.
* An OpenMP `parallel for reduction(+:sum)` is run under an explicit
  `Reduction`: a binary tree whose leaves are the workers (each with a private
  accumulator started at `0` and the list of iterations it executes, in order)
  and whose inner nodes say how partial sums are combined.
* An OpenMP `parallel for` whose iterations each perform one store into the
  shared vector is run under an explicit execution order of its iterations.
* The global vectors are passed explicitly: a sampler maps the old contents of
  its vector to the new contents.  Timing and console output are not modelled.
-/

namespace CircleOpenMP

/-! ## Constants -/

/-- Source: `const int radius = 150;` -/
def radius : ℤ := 150

/-- Source: `const int originX = 300;` -/
def originX : ℤ := 300

/-- Source: `const int originY = 300;` -/
def originY : ℤ := 300

/-- Source: `const double angle_step = 1.0;` -/
def angle_step {K : Type} [Field K] : K := 1.0

/-- Conversion `static_cast<int>` of a floating value: truncation toward zero. -/
def static_cast_int (q : ℚ) : ℤ := Int.tdiv q.num (q.den : ℤ)

/-- Source: `const int num_points = static_cast<int>(360.0 / angle_step) + 1;` -/
def num_points : ℤ := static_cast_int (360.0 / angle_step) + 1

/-- Source: `degree_to_radians`, `(degree / 180.0) * 3.1415926535`. -/
def degree_to_radians {K : Type} [Field K] (degree : K) : K :=
  (degree / 180.0) * 3.1415926535

/-! ## Library functions at the arguments the program uses -/

/-- The C function `tgamma` at a positive integer argument `n`: `Γ(n) = (n-1)!`. -/
def tgamma {K : Type} [Field K] (n : ℕ) : K := ((n - 1).factorial : K)

/-- The C function `pow` at a non-negative integer exponent. -/
def pow {K : Type} [Field K] (b : K) (n : ℕ) : K := b ^ n

/-! ## Serial Taylor functions -/

/-- Loop body of `serial_cos` / `parallel_cos`:
`pow(-1, i) * pow(radians, 2 * i) / tgamma(2 * i + 1)`. -/
def cos_term {K : Type} [Field K] (radians : K) (i : ℕ) : K :=
  pow (-1) i * pow radians (2 * i) / tgamma (2 * i + 1)

/-- Loop body of `serial_sin` / `parallel_sin`:
`pow(-1, i) * pow(radians, 2 * i + 1) / tgamma(2 * i + 2)`. -/
def sin_term {K : Type} [Field K] (radians : K) (i : ℕ) : K :=
  pow (-1) i * pow radians (2 * i + 1) / tgamma (2 * i + 2)

/-- Source: `serial_cos`; `sum = 0.0; for i in 0..50: sum += term; return sum`. -/
def serial_cos {K : Type} [Field K] (radians : K) : K :=
  (List.range 50).foldl (fun sum i => sum + cos_term radians i) 0

/-- Source: `serial_sin`. -/
def serial_sin {K : Type} [Field K] (radians : K) : K :=
  (List.range 50).foldl (fun sum i => sum + sin_term radians i) 0

/-! ## Parallel Taylor functions -/

/-- One execution of a `parallel for reduction(+:sum)` loop: `worker its` is a
thread whose private accumulator starts at `0` and which executes the iterations
`its` in that order; `combine l r` adds two partial results. -/
inductive Reduction where
  | worker (its : List ℕ) : Reduction
  | combine (l r : Reduction) : Reduction

/-- The iterations executed somewhere in the reduction, left to right. -/
def Reduction.indices : Reduction → List ℕ
  | .worker its => its
  | .combine l r => l.indices ++ r.indices

/-- The value a reduction produces for the loop body `body`. -/
def Reduction.eval {K : Type} [Field K] (body : ℕ → K) : Reduction → K
  | .worker its => its.foldl (fun sum i => sum + body i) 0
  | .combine l r => l.eval body + r.eval body

/-- The reduction distributes exactly the iterations `0, …, n-1`, each once. -/
def Reduction.covers (red : Reduction) (n : ℕ) : Prop :=
  red.indices.Perm (List.range n)

instance (red : Reduction) (n : ℕ) : Decidable (red.covers n) :=
  inferInstanceAs (Decidable (red.indices.Perm (List.range n)))

/-- Source: `parallel_cos`; the original `sum = 0.0` is combined with the result
of the reduction over the 15 iterations. -/
def parallel_cos {K : Type} [Field K] (red : Reduction) (radians : K) : K :=
  0 + red.eval (cos_term radians)

/-- Source: `parallel_sin`. -/
def parallel_sin {K : Type} [Field K] (red : Reduction) (radians : K) : K :=
  0 + red.eval (sin_term radians)

/-! ## Parametric functions -/

/-- Rounding to the nearest integer, ties to the even integer. -/
def round_half_even {K : Type} [LinearOrderedField K] [FloorRing K] (y : K) : ℤ :=
  if y - (⌊y⌋ : K) < 1 / 2 then ⌊y⌋
  else if 1 / 2 < y - (⌊y⌋ : K) then ⌊y⌋ + 1
  else if ⌊y⌋ % 2 = 0 then ⌊y⌋ else ⌊y⌋ + 1

/-- The binary exponent single precision uses for `v`: `⌊log₂ |v|⌋`, but at least
`-126`, the exponent shared by the smallest normal and all subnormal values. -/
def float_exponent {K : Type} [LinearOrderedField K] [FloorRing K] (v : K) : ℤ :=
  max (Int.log 2 |v|) (-126)

/-- Conversion `static_cast<float>` of a `double`: the nearest multiple of
`2^(e-23)`, ties to even, where `e` is the single-precision exponent of `v` (24
significand bits).  Values of magnitude `2^128` and above, which the conversion
turns into infinity, are outside the model. -/
def static_cast_float {K : Type} [LinearOrderedField K] [FloorRing K] (v : K) : K :=
  (round_half_even (v / (2 : K) ^ (float_exponent v - 23)) : K) *
    (2 : K) ^ (float_exponent v - 23)

/-- Source: `serial_parametric_x`, `static_cast<float>(r * serial_cos(rad) + j)`. -/
def serial_parametric_x {K : Type} [LinearOrderedField K] [FloorRing K]
    (r : ℤ) (rad : K) (j : ℤ) : K :=
  static_cast_float ((r : K) * serial_cos rad + (j : K))

/-- Source: `serial_parametric_y`, `static_cast<float>(r * serial_sin(rad) + k)`. -/
def serial_parametric_y {K : Type} [LinearOrderedField K] [FloorRing K]
    (r : ℤ) (rad : K) (k : ℤ) : K :=
  static_cast_float ((r : K) * serial_sin rad + (k : K))

/-- Source: `parallel_parametric_x`, `static_cast<float>(r * parallel_cos(rad) + j)`;
`red` is the execution of the reduction inside `parallel_cos`. -/
def parallel_parametric_x {K : Type} [LinearOrderedField K] [FloorRing K]
    (red : Reduction) (r : ℤ) (rad : K) (j : ℤ) : K :=
  static_cast_float ((r : K) * parallel_cos red rad + (j : K))

/-- Source: `parallel_parametric_y`, `static_cast<float>(r * parallel_sin(rad) + k)`;
`red` is the execution of the reduction inside `parallel_sin`. -/
def parallel_parametric_y {K : Type} [LinearOrderedField K] [FloorRing K]
    (red : Reduction) (r : ℤ) (rad : K) (k : ℤ) : K :=
  static_cast_float ((r : K) * parallel_sin red rad + (k : K))

/-! ## Circle samplers -/

/-- The method `vector::resize(n)`: keep the first `n` elements, pad with
value-initialised pairs `(0, 0)`. -/
def resize {K : Type} [Field K] (v : List (K × K)) (n : ℕ) : List (K × K) :=
  v.take n ++ List.replicate (n - v.length) (0, 0)

/-- Loop body of `compute_circle_points_serial` for the index `i`. -/
def serial_iteration {K : Type} [LinearOrderedField K] [FloorRing K]
    (circle_points_serial : List (K × K)) (i : ℕ) :
    List (K × K) :=
  let angle : K := (i : K) * angle_step
  let radians := degree_to_radians angle
  let x := serial_parametric_x radius radians (originX - 10)
  let y := serial_parametric_y radius radians (originY - 10)
  circle_points_serial.set i (x, y)

/-- Source: `compute_circle_points_serial`, as a map from the old contents of
`circle_points_serial` to the new contents. -/
def compute_circle_points_serial {K : Type} [LinearOrderedField K] [FloorRing K]
    (circle_points_serial : List (K × K)) :
    List (K × K) :=
  (List.range num_points.toNat).foldl serial_iteration
    (resize circle_points_serial num_points.toNat)

/-- One execution of the parallel sampler: the order in which the iterations
perform their store, and for each iteration the reductions chosen by the two
nested `parallel for reduction` loops. -/
structure Schedule where
  order : List ℕ
  cosRed : ℕ → Reduction
  sinRed : ℕ → Reduction

/-- A schedule is admissible when every iteration `0 ≤ i < num_points` is run
exactly once and every nested reduction of such an iteration runs its 15
iterations exactly once. -/
def Schedule.admissible (s : Schedule) : Prop :=
  s.order.Perm (List.range num_points.toNat) ∧
    ∀ i, i < num_points.toNat → (s.cosRed i).covers 15 ∧ (s.sinRed i).covers 15

instance (s : Schedule) : Decidable s.admissible :=
  inferInstanceAs (Decidable (s.order.Perm (List.range num_points.toNat) ∧
    ∀ i, i < num_points.toNat → (s.cosRed i).covers 15 ∧ (s.sinRed i).covers 15))

/-- Loop body of `compute_circle_points_parallel` for the index `i`. -/
def parallel_iteration {K : Type} [LinearOrderedField K] [FloorRing K] (s : Schedule)
    (circle_points_parallel : List (K × K)) (i : ℕ) : List (K × K) :=
  let angle : K := (i : K) * angle_step
  let radians := degree_to_radians angle
  let x := parallel_parametric_x (s.cosRed i) radius radians originX
  let y := parallel_parametric_y (s.sinRed i) radius radians originY
  circle_points_parallel.set i (x, y)

/-- Source: `compute_circle_points_parallel`, run under the schedule `s`. -/
def compute_circle_points_parallel {K : Type} [LinearOrderedField K] [FloorRing K] (s : Schedule)
    (circle_points_parallel : List (K × K)) : List (K × K) :=
  s.order.foldl (parallel_iteration s) (resize circle_points_parallel num_points.toNat)

/-- The schedule in which one thread does everything in increasing index order. -/
def Schedule.sequential : Schedule where
  order := List.range num_points.toNat
  cosRed := fun _ => .worker (List.range 15)
  sinRed := fun _ => .worker (List.range 15)

/-- The pair stored into slot `i` by iteration `i` of the serial sampler. -/
def serial_point {K : Type} [LinearOrderedField K] [FloorRing K] (i : ℕ) : K × K :=
  (serial_parametric_x radius (degree_to_radians ((i : K) * angle_step)) (originX - 10),
   serial_parametric_y radius (degree_to_radians ((i : K) * angle_step)) (originY - 10))

/-- The pair stored into slot `i` by iteration `i` of the parallel sampler. -/
def parallel_point {K : Type} [LinearOrderedField K] [FloorRing K] (s : Schedule) (i : ℕ) : K × K :=
  (parallel_parametric_x (s.cosRed i) radius (degree_to_radians ((i : K) * angle_step)) originX,
   parallel_parametric_y (s.sinRed i) radius (degree_to_radians ((i : K) * angle_step)) originY)

/-- A reduction over 15 iterations by four workers with static chunks, the
partial sums being combined pairwise in an order unrelated to the thread ids. -/
def Reduction.fourWorkers : Reduction :=
  .combine (.combine (.worker [12, 13, 14]) (.worker [0, 1, 2, 3]))
    (.combine (.worker [8, 9, 10, 11]) (.worker [4, 5, 6, 7]))

/-- A schedule that performs the stores in decreasing index order and uses the
four-worker reduction in every nested loop. -/
def Schedule.backwards : Schedule where
  order := (List.range num_points.toNat).reverse
  cosRed := fun _ => Reduction.fourWorkers
  sinRed := fun _ => Reduction.fourWorkers

/-- The loop of `serial_cos` with the bound `50` replaced by `N`. -/
def taylor_cos {K : Type} [Field K] (N : ℕ) (radians : K) : K :=
  (List.range N).foldl (fun sum i => sum + cos_term radians i) 0

/-- The loop of `serial_sin` with the bound `50` replaced by `N`. -/
def taylor_sin {K : Type} [Field K] (N : ℕ) (radians : K) : K :=
  (List.range N).foldl (fun sum i => sum + sin_term radians i) 0

/-! ## Basic facts -/

theorem num_points_eq : num_points = 361 := by
  have h : ((360.0 : ℚ) / angle_step) = 360 := by norm_num [angle_step]
  rw [num_points, h]
  rfl

theorem num_points_toNat : num_points.toNat = 361 := by
  rw [num_points_eq]; rfl

theorem foldl_add_eq_sum {K : Type} [Field K] (body : ℕ → K) (its : List ℕ) (a : K) :
    its.foldl (fun sum i => sum + body i) a = a + (its.map body).sum := by
  induction its generalizing a with
  | nil => simp
  | cons i its ih => simp [ih, add_assoc]

theorem foldl_range_eq_sum {K : Type} [Field K] (body : ℕ → K) (n : ℕ) :
    (List.range n).foldl (fun sum i => sum + body i) 0 = ∑ i ∈ Finset.range n, body i := by
  induction n with
  | zero => simp
  | succ n ih => rw [List.range_succ, List.foldl_append, ih, Finset.sum_range_succ]; rfl

theorem Reduction.eval_eq_sum {K : Type} [Field K] (body : ℕ → K) (red : Reduction) :
    red.eval body = (red.indices.map body).sum := by
  induction red with
  | worker its => simp [Reduction.eval, Reduction.indices, foldl_add_eq_sum]
  | combine l r ihl ihr => simp [Reduction.eval, Reduction.indices, ihl, ihr]

theorem Reduction.eval_of_covers {K : Type} [Field K] (body : ℕ → K) (red : Reduction) (n : ℕ)
    (h : red.covers n) : red.eval body = ∑ i ∈ Finset.range n, body i := by
  rw [Reduction.eval_eq_sum, (h.map body).sum_eq, ← foldl_range_eq_sum, foldl_add_eq_sum, zero_add]

theorem cos_term_eq {K : Type} [Field K] (x : K) (i : ℕ) :
    cos_term x i = (-1) ^ i * x ^ (2 * i) / ((2 * i).factorial : K) := by
  simp [cos_term, pow, tgamma]

theorem sin_term_eq {K : Type} [Field K] (x : K) (i : ℕ) :
    sin_term x i = (-1) ^ i * x ^ (2 * i + 1) / ((2 * i + 1).factorial : K) := by
  simp [sin_term, pow, tgamma]

theorem serial_cos_eq_sum {K : Type} [Field K] (x : K) :
    serial_cos x = ∑ i ∈ Finset.range 50, (-1) ^ i * x ^ (2 * i) / ((2 * i).factorial : K) := by
  rw [serial_cos, foldl_range_eq_sum]
  exact Finset.sum_congr rfl fun i _ => cos_term_eq x i

theorem serial_sin_eq_sum {K : Type} [Field K] (x : K) :
    serial_sin x =
      ∑ i ∈ Finset.range 50, (-1) ^ i * x ^ (2 * i + 1) / ((2 * i + 1).factorial : K) := by
  rw [serial_sin, foldl_range_eq_sum]
  exact Finset.sum_congr rfl fun i _ => sin_term_eq x i

theorem parallel_cos_eq_sum {K : Type} [Field K] (red : Reduction) (h : red.covers 15) (x : K) :
    parallel_cos red x =
      ∑ i ∈ Finset.range 15, (-1) ^ i * x ^ (2 * i) / ((2 * i).factorial : K) := by
  rw [parallel_cos, zero_add, Reduction.eval_of_covers _ _ _ h]
  exact Finset.sum_congr rfl fun i _ => cos_term_eq x i

theorem parallel_sin_eq_sum {K : Type} [Field K] (red : Reduction) (h : red.covers 15) (x : K) :
    parallel_sin red x =
      ∑ i ∈ Finset.range 15, (-1) ^ i * x ^ (2 * i + 1) / ((2 * i + 1).factorial : K) := by
  rw [parallel_sin, zero_add, Reduction.eval_of_covers _ _ _ h]
  exact Finset.sum_congr rfl fun i _ => sin_term_eq x i

theorem worker_range_covers (n : ℕ) : (Reduction.worker (List.range n)).covers n :=
  List.Perm.refl _

/-! ## Stores into a vector -/

theorem length_resize {K : Type} [Field K] (v : List (K × K)) (n : ℕ) :
    (resize v n).length = n := by
  simp only [resize, List.length_append, List.length_take, List.length_replicate]
  omega

/-- A loop that stores `f i` into slot `i` for each `i` of `order`, in that order. -/
theorem length_foldl_set {α : Type} (f : ℕ → α) (order : List ℕ) (buf : List α) :
    (order.foldl (fun b i => b.set i (f i)) buf).length = buf.length := by
  induction order generalizing buf with
  | nil => rfl
  | cons i order ih => rw [List.foldl_cons, ih, List.length_set]

theorem getElem?_foldl_set {α : Type} (f : ℕ → α) (order : List ℕ) (buf : List α) (j : ℕ) :
    (order.foldl (fun b i => b.set i (f i)) buf)[j]? =
      if j ∈ order ∧ j < buf.length then some (f j) else buf[j]? := by
  induction order generalizing buf with
  | nil => simp
  | cons i order ih =>
    rw [List.foldl_cons, ih, List.length_set, List.getElem?_set]
    by_cases hji : i = j
    · subst hji
      by_cases hlt : i < buf.length
      · by_cases hmem : i ∈ order <;> simp [hlt, hmem]
      · have hge : buf.length ≤ i := Nat.le_of_not_lt hlt
        simp [hlt, List.getElem?_eq_none hge]
    · have hji' : ¬ j = i := fun h => hji h.symm
      simp [hji, hji']

theorem foldl_set_of_perm {α : Type} (f : ℕ → α) (order : List ℕ) (buf : List α)
    (h : order.Perm (List.range buf.length)) :
    order.foldl (fun b i => b.set i (f i)) buf = (List.range buf.length).map f := by
  apply List.ext_getElem?
  intro j
  rw [getElem?_foldl_set]
  by_cases hj : j < buf.length
  · have hmem : j ∈ order := h.mem_iff.mpr (List.mem_range.mpr hj)
    simp [hj, hmem]
  · have hj' : buf.length ≤ j := Nat.le_of_not_lt hj
    have hr : (List.range buf.length)[j]? = none :=
      List.getElem?_eq_none (by rw [List.length_range]; exact hj')
    simp [hj, List.getElem?_eq_none hj', hr]

/-! ## The samplers in closed form -/

theorem sequential_admissible : Schedule.sequential.admissible :=
  ⟨List.Perm.refl _, fun _ _ => ⟨List.Perm.refl _, List.Perm.refl _⟩⟩

theorem fourWorkers_covers : Reduction.fourWorkers.covers 15 := by
  show List.Perm _ _
  decide

theorem backwards_admissible : Schedule.backwards.admissible :=
  ⟨List.reverse_perm _, fun _ _ => ⟨fourWorkers_covers, fourWorkers_covers⟩⟩

theorem compute_circle_points_serial_eq {K : Type} [LinearOrderedField K] [FloorRing K]
    (buf : List (K × K)) :
    compute_circle_points_serial buf = (List.range 361).map serial_point := by
  have h := foldl_set_of_perm (serial_point (K := K)) (List.range num_points.toNat)
    (resize buf num_points.toNat) (by rw [length_resize])
  rw [length_resize, num_points_toNat] at h
  rw [compute_circle_points_serial, num_points_toNat]
  exact h

theorem compute_circle_points_parallel_eq {K : Type} [LinearOrderedField K] [FloorRing K]
    (s : Schedule)
    (hs : s.order.Perm (List.range num_points.toNat)) (buf : List (K × K)) :
    compute_circle_points_parallel s buf = (List.range 361).map (parallel_point s) := by
  have h := foldl_set_of_perm (parallel_point (K := K) s) s.order
    (resize buf num_points.toNat) (by rw [length_resize]; exact hs)
  rw [length_resize] at h
  rw [compute_circle_points_parallel, ← num_points_toNat]
  exact h

theorem getElem?_map_range {α : Type} (f : ℕ → α) (n i : ℕ) (h : i < n) :
    ((List.range n).map f)[i]? = some (f i) := by
  simp [h]

theorem degree_to_radians_index (i : ℕ) :
    degree_to_radians ((i : ℝ) * angle_step) = ((i : ℝ) / 180) * 3.1415926535 := by
  simp only [degree_to_radians, angle_step]
  norm_num

theorem serial_point_eq (i : ℕ) :
    (serial_point i : ℝ × ℝ) =
      (static_cast_float (150 * serial_cos (((i : ℝ) / 180) * 3.1415926535) + 290),
       static_cast_float (150 * serial_sin (((i : ℝ) / 180) * 3.1415926535) + 290)) := by
  simp only [serial_point, serial_parametric_x, serial_parametric_y, degree_to_radians_index,
    radius, originX, originY]
  norm_num

theorem parallel_point_eq (s : Schedule) (i : ℕ) :
    (parallel_point s i : ℝ × ℝ) =
      (static_cast_float
        (150 * parallel_cos (s.cosRed i) (((i : ℝ) / 180) * 3.1415926535) + 300),
       static_cast_float
        (150 * parallel_sin (s.sinRed i) (((i : ℝ) / 180) * 3.1415926535) + 300)) := by
  simp only [parallel_point, parallel_parametric_x, parallel_parametric_y,
    degree_to_radians_index, radius, originX, originY]
  norm_num

theorem serial_cos_zero {K : Type} [Field K] : serial_cos (0 : K) = 1 := by
  rw [serial_cos_eq_sum, Finset.sum_eq_single 0]
  · simp
  · intro i _ hi
    have : 2 * i ≠ 0 := by omega
    simp [this]
  · simp

theorem serial_sin_zero {K : Type} [Field K] : serial_sin (0 : K) = 0 := by
  rw [serial_sin_eq_sum]
  apply Finset.sum_eq_zero
  intro i _
  simp

/-! ## Rounding to single precision -/

theorem round_half_even_cases (y : ℝ) :
    round_half_even y = ⌊y⌋ ∧ y - (⌊y⌋ : ℝ) ≤ 1 / 2 ∨
      round_half_even y = ⌊y⌋ + 1 ∧ 1 / 2 ≤ y - (⌊y⌋ : ℝ) := by
  unfold round_half_even
  split_ifs with h1 h2 h3
  · exact Or.inl ⟨rfl, h1.le⟩
  · exact Or.inr ⟨rfl, h2.le⟩
  · exact Or.inl ⟨rfl, not_lt.mp h2⟩
  · exact Or.inr ⟨rfl, not_lt.mp h1⟩

theorem abs_round_half_even_sub_le (y : ℝ) : |(round_half_even y : ℝ) - y| ≤ 1 / 2 := by
  have hf := Int.floor_le y
  have hl := Int.lt_floor_add_one y
  rw [abs_le]
  rcases round_half_even_cases y with ⟨h, hd⟩ | ⟨h, hd⟩
  · rw [h]; constructor <;> linarith
  · rw [h]; push_cast; constructor <;> linarith

theorem round_half_even_of_near (y : ℝ) (m : ℤ) (h : |y - (m : ℝ)| < 1 / 2) :
    round_half_even y = m := by
  have hr := abs_round_half_even_sub_le y
  rw [abs_lt] at h
  rw [abs_le] at hr
  have h1 : ((round_half_even y : ℤ) : ℝ) < (m : ℝ) + 1 := by linarith
  have h2 : (m : ℝ) < ((round_half_even y : ℤ) : ℝ) + 1 := by linarith
  have h1' : round_half_even y < m + 1 := by exact_mod_cast h1
  have h2' : m < round_half_even y + 1 := by exact_mod_cast h2
  omega

theorem round_half_even_intCast (n : ℤ) : round_half_even (n : ℝ) = n :=
  round_half_even_of_near _ n (by simp)

theorem round_half_even_tie (m : ℤ) (hm : m % 2 = 0) :
    round_half_even ((m : ℝ) + 1 / 2) = m := by
  have hfl : ⌊(m : ℝ) + 1 / 2⌋ = m := by
    rw [Int.floor_eq_iff]; constructor <;> linarith
  unfold round_half_even
  rw [hfl]
  have e : (m : ℝ) + 1 / 2 - (m : ℝ) = 1 / 2 := by ring
  rw [e]
  simp [hm]

theorem float_exponent_eq (v : ℝ) (e : ℤ) (he : -126 ≤ e) (h1 : (2 : ℝ) ^ e ≤ |v|)
    (h2 : |v| < (2 : ℝ) ^ (e + 1)) : float_exponent v = e := by
  have hpos : 0 < |v| := lt_of_lt_of_le (by positivity) h1
  have hlo : e ≤ Int.log 2 |v| :=
    (Int.zpow_le_iff_le_log (by norm_num) hpos).mp (by exact_mod_cast h1)
  have hhi : Int.log 2 |v| < e + 1 :=
    (Int.lt_zpow_iff_log_lt (by norm_num) hpos).mp (by exact_mod_cast h2)
  unfold float_exponent
  omega

theorem float_exponent_le (v : ℝ) (E : ℤ) (hE : 0 ≤ E) (h : |v| < (2 : ℝ) ^ (E + 1)) :
    float_exponent v ≤ E := by
  unfold float_exponent
  rcases eq_or_lt_of_le (abs_nonneg v) with h0 | hpos
  · rw [← h0, Int.log_zero_right]; omega
  · have hhi : Int.log 2 |v| < E + 1 :=
      (Int.lt_zpow_iff_log_lt (by norm_num) hpos).mp (by exact_mod_cast h)
    omega

/-- Below `2^9` in magnitude the conversion to `float` moves a value by at most
half a unit in the last place of the binade `[2^8, 2^9)`, which is `2^-16`. -/
theorem abs_static_cast_float_sub_le (v : ℝ) (h : |v| < 512) :
    |static_cast_float v - v| ≤ 1 / 2 ^ 16 := by
  have he : float_exponent v ≤ 8 := float_exponent_le v 8 (by norm_num) (by norm_num; exact h)
  have hq : (0 : ℝ) < (2 : ℝ) ^ (float_exponent v - 23) := by positivity
  have hq' : (2 : ℝ) ^ (float_exponent v - 23) ≤ (2 : ℝ) ^ (-15 : ℤ) :=
    zpow_le_zpow_right₀ (by norm_num) (by omega)
  have hr := abs_round_half_even_sub_le (v / (2 : ℝ) ^ (float_exponent v - 23))
  have e : static_cast_float v - v =
      ((round_half_even (v / (2 : ℝ) ^ (float_exponent v - 23)) : ℝ) -
        v / (2 : ℝ) ^ (float_exponent v - 23)) * (2 : ℝ) ^ (float_exponent v - 23) := by
    unfold static_cast_float
    field_simp
  rw [e, abs_mul, abs_of_pos hq]
  have h15 : (2 : ℝ) ^ (-15 : ℤ) = 1 / 2 ^ 15 := by norm_num
  calc _ ≤ 1 / 2 * (2 : ℝ) ^ (-15 : ℤ) := mul_le_mul hr hq' hq.le (by norm_num)
    _ = 1 / 2 ^ 16 := by rw [h15]; norm_num

/-- In the binade `[2^e, 2^(e+1))` the conversion rounds to a multiple of `2^(e-23)`. -/
theorem static_cast_float_of_exponent (v : ℝ) (e : ℤ) (he : -126 ≤ e) (h1 : (2 : ℝ) ^ e ≤ |v|)
    (h2 : |v| < (2 : ℝ) ^ (e + 1)) :
    static_cast_float v = (round_half_even (v / (2 : ℝ) ^ (e - 23)) : ℝ) * (2 : ℝ) ^ (e - 23) := by
  unfold static_cast_float
  rw [float_exponent_eq v e he h1 h2]

theorem static_cast_float_of_near (v : ℝ) (m : ℤ) (h1 : 256 ≤ |v|) (h2 : |v| < 512)
    (h : |v * 32768 - (m : ℝ)| < 1 / 2) : static_cast_float v = (m : ℝ) / 32768 := by
  have hq : (2 : ℝ) ^ ((8 : ℤ) - 23) = 1 / 32768 := by norm_num
  rw [static_cast_float_of_exponent v 8 (by norm_num) (by norm_num; exact h1)
    (by norm_num; exact h2), hq]
  have hy : v / (1 / 32768) = v * 32768 := by field_simp
  rw [hy, round_half_even_of_near _ m h]
  ring

theorem static_cast_float_zero : static_cast_float (0 : ℝ) = 0 := by
  unfold static_cast_float
  rw [zero_div]
  have := round_half_even_intCast 0
  simp only [Int.cast_zero] at this
  rw [this]; simp

theorem static_cast_float_of_quotient (v : ℝ) (z : ℤ)
    (h : v / (2 : ℝ) ^ (float_exponent v - 23) = (z : ℝ)) : static_cast_float v = v := by
  have hq : (2 : ℝ) ^ (float_exponent v - 23) ≠ 0 := by positivity
  unfold static_cast_float
  rw [h, round_half_even_intCast, ← h]
  field_simp

/-- Integers of magnitude at most `2^24` are single-precision values. -/
theorem static_cast_float_intCast (n : ℤ) (h : |n| ≤ 2 ^ 24) :
    static_cast_float (n : ℝ) = n := by
  rcases eq_or_lt_of_le h with h24 | hlt
  · have habs : |(n : ℝ)| = 2 ^ 24 := by
      rw [← Int.cast_abs, h24]; norm_num
    have he : float_exponent (n : ℝ) = 24 :=
      float_exponent_eq _ 24 (by norm_num) (by rw [habs]; norm_num) (by rw [habs]; norm_num)
    have hn : n = 2 ^ 24 ∨ n = -2 ^ 24 := by
      rcases abs_cases n with ⟨h1, _⟩ | ⟨h1, _⟩ <;> omega
    rcases hn with hn | hn
    · exact static_cast_float_of_quotient _ (2 ^ 23) (by rw [he, hn]; norm_num)
    · exact static_cast_float_of_quotient _ (-2 ^ 23) (by rw [he, hn]; norm_num)
  · have habs : |(n : ℝ)| < (2 : ℝ) ^ ((23 : ℤ) + 1) := by
      rw [← Int.cast_abs]
      have : ((|n| : ℤ) : ℝ) < ((2 ^ 24 : ℤ) : ℝ) := Int.cast_lt.mpr hlt
      norm_num at this ⊢
      exact this
    have he : float_exponent (n : ℝ) ≤ 23 := float_exponent_le _ 23 (by norm_num) habs
    obtain ⟨k, hk⟩ : ∃ k : ℕ, float_exponent (n : ℝ) - 23 = -(k : ℤ) :=
      ⟨(23 - float_exponent (n : ℝ)).toNat, by omega⟩
    refine static_cast_float_of_quotient _ (n * 2 ^ k) ?_
    rw [hk, zpow_neg, zpow_natCast, div_inv_eq_mul]
    push_cast
    ring

/-- The least odd integer above `2^24` is not a single-precision value: it is a
tie between `2^24` and `2^24 + 2` and rounds to the even significand. -/
theorem static_cast_float_tie : static_cast_float (16777217 : ℝ) = 16777216 := by
  rw [static_cast_float_of_exponent _ 24 (by norm_num)
    (by rw [abs_of_pos (by norm_num)]; norm_num) (by rw [abs_of_pos (by norm_num)]; norm_num)]
  have hy : (16777217 : ℝ) / (2 : ℝ) ^ ((24 : ℤ) - 23) = ((8388608 : ℤ) : ℝ) + 1 / 2 := by
    norm_num
  rw [hy, round_half_even_tie _ (by decide)]
  norm_num

/-! ## Claims about the exact sums, the samplers and their schedules -/

/-- C1: for every real angle `x`, `serial_cos x` is the sum over `i = 0..49` of
`(-1)^i * x^(2i) / (2i)!` and `serial_sin x` is the sum over `i = 0..49` of
`(-1)^i * x^(2i+1) / (2i+1)!`. -/
theorem C1_serial_taylor_sums (x : ℝ) :
    serial_cos x = ∑ i ∈ Finset.range 50, (-1) ^ i * x ^ (2 * i) / ((2 * i).factorial : ℝ) ∧
    serial_sin x =
      ∑ i ∈ Finset.range 50, (-1) ^ i * x ^ (2 * i + 1) / ((2 * i + 1).factorial : ℝ) :=
  ⟨serial_cos_eq_sum x, serial_sin_eq_sum x⟩

/-- C2: for every real angle `x` and every reduction `red` that distributes the
loop indices `0..14` among workers (any partition, any order inside a worker, any
shape and order of combining the partial sums), `parallel_cos red x` and
`parallel_sin red x` equal the sequential 15-term sums, both as the loop run by
a single worker in increasing order and as the closed-form finite sums. -/
theorem C2_parallel_reduction_eq_sequential (x : ℝ) (red : Reduction) (h : red.covers 15) :
    parallel_cos red x = (List.range 15).foldl (fun sum i => sum + cos_term x i) 0 ∧
    parallel_sin red x = (List.range 15).foldl (fun sum i => sum + sin_term x i) 0 ∧
    parallel_cos red x =
      ∑ i ∈ Finset.range 15, (-1) ^ i * x ^ (2 * i) / ((2 * i).factorial : ℝ) ∧
    parallel_sin red x =
      ∑ i ∈ Finset.range 15, (-1) ^ i * x ^ (2 * i + 1) / ((2 * i + 1).factorial : ℝ) := by
  refine ⟨?_, ?_, parallel_cos_eq_sum red h x, parallel_sin_eq_sum red h x⟩
  · rw [parallel_cos, zero_add, Reduction.eval_of_covers _ _ _ h, foldl_range_eq_sum]
  · rw [parallel_sin, zero_add, Reduction.eval_of_covers _ _ _ h, foldl_range_eq_sum]

/-- Witness for C2 at `x = 2` under the four-worker reduction. -/
theorem C2_parallel_reduction_eq_sequential_witness :
    Reduction.fourWorkers.covers 15 ∧
    parallel_cos Reduction.fourWorkers (2 : ℝ) =
      (List.range 15).foldl (fun sum i => sum + cos_term (2 : ℝ) i) 0 ∧
    parallel_sin Reduction.fourWorkers (2 : ℝ) =
      (List.range 15).foldl (fun sum i => sum + sin_term (2 : ℝ) i) 0 ∧
    parallel_cos Reduction.fourWorkers (2 : ℝ) =
      ∑ i ∈ Finset.range 15, (-1) ^ i * (2 : ℝ) ^ (2 * i) / ((2 * i).factorial : ℝ) ∧
    parallel_sin Reduction.fourWorkers (2 : ℝ) =
      ∑ i ∈ Finset.range 15, (-1) ^ i * (2 : ℝ) ^ (2 * i + 1) / ((2 * i + 1).factorial : ℝ) :=
  ⟨fourWorkers_covers, C2_parallel_reduction_eq_sequential 2 Reduction.fourWorkers
    fourWorkers_covers⟩

/-- C4: in the parallel sampler, iteration `i` stores into slot `i` of the
pre-sized 361-element vector and leaves every other slot and the length
unchanged; consequently, for every permutation `s.order` of the 361 iterations,
the final vector is the one obtained by running them in increasing index order. -/
theorem C4_parallel_sampler_index_addressed (s : Schedule) (buf : List (ℝ × ℝ))
    (hs : s.order.Perm (List.range num_points.toNat)) :
    (resize buf num_points.toNat).length = 361 ∧
    (∀ (b : List (ℝ × ℝ)) (i j : ℕ), j ≠ i → (parallel_iteration s b i)[j]? = b[j]?) ∧
    (∀ (b : List (ℝ × ℝ)) (i : ℕ), i < b.length →
      (parallel_iteration s b i)[i]? = some (parallel_point s i)) ∧
    (∀ (b : List (ℝ × ℝ)) (i : ℕ), (parallel_iteration s b i).length = b.length) ∧
    compute_circle_points_parallel s buf =
      compute_circle_points_parallel
        (Schedule.mk (List.range num_points.toNat) s.cosRed s.sinRed) buf := by
  refine ⟨by rw [length_resize, num_points_toNat], ?_, ?_, ?_, ?_⟩
  · intro b i j hji
    have hij : ¬ i = j := fun h => hji h.symm
    simp [parallel_iteration, List.getElem?_set, hij]
  · intro b i hi
    simp [parallel_iteration, parallel_point, List.getElem?_set, hi]
  · intro b i
    simp [parallel_iteration]
  · rw [compute_circle_points_parallel_eq s hs,
      compute_circle_points_parallel_eq _ (List.Perm.refl _)]
    rfl

/-- Witness for C4: the stores performed in decreasing index order, starting
from a vector holding one stale point. -/
theorem C4_parallel_sampler_index_addressed_witness :
    Schedule.backwards.order.Perm (List.range num_points.toNat) ∧
    compute_circle_points_parallel Schedule.backwards ([(7, 7)] : List (ℝ × ℝ)) =
      compute_circle_points_parallel
        (Schedule.mk (List.range num_points.toNat) Schedule.backwards.cosRed
          Schedule.backwards.sinRed) [(7, 7)] :=
  ⟨List.reverse_perm _,
    (C4_parallel_sampler_index_addressed Schedule.backwards [(7, 7)]
      (List.reverse_perm _)).2.2.2.2⟩

/-! ## Alternating series with eventually decreasing terms -/

theorem alternating_tail_bounds (a : ℕ → ℝ) (L : ℝ) (N : ℕ)
    (hsum : HasSum (fun n => (-1) ^ n * a n) L)
    (hanti : ∀ n, N ≤ n → a (n + 1) ≤ a n) :
    0 ≤ (-1) ^ N * (L - ∑ i ∈ Finset.range N, (-1) ^ i * a i) ∧
    (-1) ^ N * (L - ∑ i ∈ Finset.range N, (-1) ^ i * a i) ≤ a N ∧
    (-1) ^ N * (L - ∑ i ∈ Finset.range N, (-1) ^ i * a i) ≤ a N - a (N + 1) + a (N + 2) := by
  have h1 := ((hasSum_nat_add_iff' N).mpr hsum).mul_left ((-1 : ℝ) ^ N)
  have hsq : (-1 : ℝ) ^ N * (-1) ^ N = 1 := by
    rw [← pow_add, ← two_mul, pow_mul]; simp
  have hfun : (fun n => (-1 : ℝ) ^ N * ((-1) ^ (n + N) * a (n + N))) =
      fun n => (-1 : ℝ) ^ n * a (N + n) := by
    funext n
    rw [pow_add, Nat.add_comm n N]
    calc (-1 : ℝ) ^ N * ((-1) ^ n * (-1) ^ N * a (N + n))
        = ((-1 : ℝ) ^ N * (-1) ^ N) * ((-1) ^ n * a (N + n)) := by ring
      _ = (-1) ^ n * a (N + n) := by rw [hsq, one_mul]
  rw [hfun] at h1
  have ht := h1.tendsto_sum_nat
  have hg : Antitone (fun n => a (N + n)) :=
    antitone_nat_of_succ_le fun n => hanti (N + n) (Nat.le_add_right N n)
  have lo := hg.alternating_series_le_tendsto ht 0
  have hi0 := hg.tendsto_le_alternating_series ht 0
  have hi1 := hg.tendsto_le_alternating_series ht 1
  simp only [Nat.mul_zero, Finset.range_zero, Finset.sum_empty] at lo
  simp [Finset.sum_range_succ] at hi0 hi1
  refine ⟨lo, hi0, ?_⟩
  linarith

theorem abs_neg_one_pow_mul (N : ℕ) (E : ℝ) : |(-1) ^ N * E| = |E| := by
  rw [abs_mul, abs_pow, abs_neg, abs_one, one_pow, one_mul]

/-- The truncation error of an alternating series is at most the first omitted
term, once the terms decrease from there on. -/
theorem alternating_error_le (a : ℕ → ℝ) (L : ℝ) (N : ℕ)
    (hsum : HasSum (fun n => (-1) ^ n * a n) L)
    (hanti : ∀ n, N ≤ n → a (n + 1) ≤ a n) :
    |L - ∑ i ∈ Finset.range N, (-1) ^ i * a i| ≤ a N := by
  obtain ⟨h0, h1, _⟩ := alternating_tail_bounds a L N hsum hanti
  rw [← abs_neg_one_pow_mul N, abs_of_nonneg h0]
  exact h1

/-- One more term does not increase the truncation error, once the terms
decrease and three consecutive ones are small against the term just added. -/
theorem alternating_error_step (a : ℕ → ℝ) (L : ℝ) (N : ℕ)
    (hsum : HasSum (fun n => (-1) ^ n * a n) L)
    (hanti : ∀ n, N + 1 ≤ n → a (n + 1) ≤ a n)
    (hsmall : 2 * (a (N + 1) - a (N + 2) + a (N + 3)) ≤ a N) :
    |L - ∑ i ∈ Finset.range (N + 1), (-1) ^ i * a i| ≤
      |L - ∑ i ∈ Finset.range N, (-1) ^ i * a i| := by
  obtain ⟨h0, _, h2⟩ := alternating_tail_bounds a L (N + 1) hsum hanti
  have hsq : (-1 : ℝ) ^ N * (-1) ^ N = 1 := by
    rw [← pow_add, ← two_mul, pow_mul]; simp
  have hrel : (-1 : ℝ) ^ N * (L - ∑ i ∈ Finset.range N, (-1) ^ i * a i) =
      a N - (-1) ^ (N + 1) * (L - ∑ i ∈ Finset.range (N + 1), (-1) ^ i * a i) := by
    rw [Finset.sum_range_succ, pow_succ]
    linear_combination (a N) * hsq
  rw [← abs_neg_one_pow_mul (N + 1) (L - ∑ i ∈ Finset.range (N + 1), (-1) ^ i * a i),
    ← abs_neg_one_pow_mul N (L - ∑ i ∈ Finset.range N, (-1) ^ i * a i), hrel,
    abs_of_nonneg h0]
  refine le_trans ?_ (le_abs_self _)
  linarith

/-! ## The Taylor sums of the program as alternating series -/

theorem taylor_cos_eq_sum (N : ℕ) (x : ℝ) :
    taylor_cos N x = ∑ i ∈ Finset.range N, (-1) ^ i * (x ^ (2 * i) / ((2 * i).factorial : ℝ)) := by
  rw [taylor_cos, foldl_range_eq_sum]
  exact Finset.sum_congr rfl fun i _ => by rw [cos_term_eq, mul_div_assoc]

theorem taylor_sin_eq_sum (N : ℕ) (x : ℝ) :
    taylor_sin N x =
      ∑ i ∈ Finset.range N, (-1) ^ i * (x ^ (2 * i + 1) / ((2 * i + 1).factorial : ℝ)) := by
  rw [taylor_sin, foldl_range_eq_sum]
  exact Finset.sum_congr rfl fun i _ => by rw [sin_term_eq, mul_div_assoc]

theorem hasSum_cos_terms (x : ℝ) :
    HasSum (fun n : ℕ => (-1 : ℝ) ^ n * (x ^ (2 * n) / ((2 * n).factorial : ℝ))) (Real.cos x) := by
  have h := Real.hasSum_cos x
  simp only [mul_div_assoc] at h
  exact h

theorem hasSum_sin_terms (x : ℝ) :
    HasSum (fun n : ℕ => (-1 : ℝ) ^ n * (x ^ (2 * n + 1) / ((2 * n + 1).factorial : ℝ)))
      (Real.sin x) := by
  have h := Real.hasSum_sin x
  simp only [mul_div_assoc] at h
  exact h

theorem cos_mag_succ (x : ℝ) (n : ℕ) :
    x ^ (2 * (n + 1)) / ((2 * (n + 1)).factorial : ℝ) =
      x ^ (2 * n) / ((2 * n).factorial : ℝ) * (x ^ 2 / ((2 * n + 1) * (2 * n + 2))) := by
  have hf : ((2 * n).factorial : ℝ) ≠ 0 := by positivity
  have e : 2 * (n + 1) = 2 * n + 1 + 1 := by ring
  rw [e, Nat.factorial_succ, Nat.factorial_succ]
  push_cast
  field_simp
  ring

theorem sin_mag_succ (x : ℝ) (n : ℕ) :
    x ^ (2 * (n + 1) + 1) / ((2 * (n + 1) + 1).factorial : ℝ) =
      x ^ (2 * n + 1) / ((2 * n + 1).factorial : ℝ) * (x ^ 2 / ((2 * n + 2) * (2 * n + 3))) := by
  have hf : ((2 * n + 1).factorial : ℝ) ≠ 0 := by positivity
  have e : 2 * (n + 1) + 1 = 2 * n + 1 + 1 + 1 := by ring
  rw [e, Nat.factorial_succ (2 * n + 1 + 1), Nat.factorial_succ (2 * n + 1)]
  push_cast
  field_simp
  ring
/-! ## Truncation error of the program's sums against the true functions -/

theorem cos_mag_nonneg (x : ℝ) (n : ℕ) : 0 ≤ x ^ (2 * n) / ((2 * n).factorial : ℝ) :=
  div_nonneg ((even_two_mul n).pow_nonneg x) (Nat.cast_nonneg _)

theorem sin_mag_nonneg (x : ℝ) (n : ℕ) : 0 ≤ |x| ^ (2 * n + 1) / ((2 * n + 1).factorial : ℝ) :=
  div_nonneg (pow_nonneg (abs_nonneg x) _) (Nat.cast_nonneg _)

theorem ratio_le_one (t : ℝ) (p q : ℕ) (N n : ℕ) (hn : N ≤ n)
    (h : t ≤ (2 * (N : ℝ) + p) * (2 * N + q)) (hp : 0 < p) (hq : 0 < q) :
    t / ((2 * (n : ℝ) + p) * (2 * n + q)) ≤ 1 := by
  have hNn : (N : ℝ) ≤ n := Nat.cast_le.mpr hn
  have hN0 : (0 : ℝ) ≤ N := Nat.cast_nonneg N
  have hp0 : (0 : ℝ) < p := Nat.cast_pos.mpr hp
  have hq0 : (0 : ℝ) < q := Nat.cast_pos.mpr hq
  have hpos : (0 : ℝ) < (2 * (n : ℝ) + p) * (2 * n + q) := by positivity
  rw [div_le_one hpos]
  have hmono : (2 * (N : ℝ) + p) * (2 * N + q) ≤ (2 * (n : ℝ) + p) * (2 * n + q) := by
    apply mul_le_mul <;> nlinarith
  linarith

theorem cos_mag_antitone (x : ℝ) (N : ℕ) (h : x ^ 2 ≤ (2 * (N : ℝ) + 1) * (2 * N + 2)) (n : ℕ)
    (hn : N ≤ n) :
    x ^ (2 * (n + 1)) / ((2 * (n + 1)).factorial : ℝ) ≤ x ^ (2 * n) / ((2 * n).factorial : ℝ) := by
  rw [cos_mag_succ]
  have hr := ratio_le_one (x ^ 2) 1 2 N n hn (by exact_mod_cast h) (by norm_num) (by norm_num)
  have hr' : x ^ 2 / ((2 * (n : ℝ) + 1) * (2 * n + 2)) ≤ 1 := by exact_mod_cast hr
  exact mul_le_of_le_one_right (cos_mag_nonneg x n) hr'

theorem sin_mag_antitone (x : ℝ) (N : ℕ) (h : x ^ 2 ≤ (2 * (N : ℝ) + 2) * (2 * N + 3)) (n : ℕ)
    (hn : N ≤ n) :
    |x| ^ (2 * (n + 1) + 1) / ((2 * (n + 1) + 1).factorial : ℝ) ≤
      |x| ^ (2 * n + 1) / ((2 * n + 1).factorial : ℝ) := by
  rw [sin_mag_succ, sq_abs]
  have hr := ratio_le_one (x ^ 2) 2 3 N n hn (by exact_mod_cast h) (by norm_num) (by norm_num)
  have hr' : x ^ 2 / ((2 * (n : ℝ) + 2) * (2 * n + 3)) ≤ 1 := by exact_mod_cast hr
  exact mul_le_of_le_one_right (sin_mag_nonneg x n) hr'

theorem taylor_sin_neg (N : ℕ) (x : ℝ) : taylor_sin N (-x) = -taylor_sin N x := by
  rw [taylor_sin_eq_sum, taylor_sin_eq_sum, ← Finset.sum_neg_distrib]
  refine Finset.sum_congr rfl fun i _ => ?_
  rw [Odd.neg_pow ⟨i, rfl⟩]
  ring

theorem sin_error_abs (N : ℕ) (x : ℝ) :
    |Real.sin x - taylor_sin N x| = |Real.sin (abs x) - taylor_sin N (abs x)| := by
  rcases abs_cases x with ⟨h, _⟩ | ⟨h, _⟩
  · rw [h]
  · rw [h, Real.sin_neg, taylor_sin_neg, ← abs_neg]
    congr 1
    ring

/-- Truncation error of the `N`-term cosine sum, once the terms decrease. -/
theorem cos_error_le (x : ℝ) (N : ℕ) (h : x ^ 2 ≤ (2 * (N : ℝ) + 1) * (2 * N + 2)) :
    |Real.cos x - taylor_cos N x| ≤ x ^ (2 * N) / ((2 * N).factorial : ℝ) := by
  rw [taylor_cos_eq_sum]
  exact alternating_error_le (fun n => x ^ (2 * n) / ((2 * n).factorial : ℝ)) _ N
    (hasSum_cos_terms x) (cos_mag_antitone x N h)

/-- Truncation error of the `N`-term sine sum, once the terms decrease. -/
theorem sin_error_le (x : ℝ) (N : ℕ) (h : x ^ 2 ≤ (2 * (N : ℝ) + 2) * (2 * N + 3)) :
    |Real.sin x - taylor_sin N x| ≤ |x| ^ (2 * N + 1) / ((2 * N + 1).factorial : ℝ) := by
  rw [sin_error_abs, taylor_sin_eq_sum]
  exact alternating_error_le (fun n => |x| ^ (2 * n + 1) / ((2 * n + 1).factorial : ℝ)) _ N
    (hasSum_sin_terms |x|) (sin_mag_antitone x N h)
/-! ## Numerical bounds on the sampled range -/

theorem abs_sin_sub_sin_le (x y : ℝ) : |Real.sin x - Real.sin y| ≤ |x - y| := by
  rw [Real.sin_sub_sin, abs_mul, abs_mul, abs_two]
  have h1 : |Real.sin ((x - y) / 2)| ≤ |(x - y) / 2| := Real.abs_sin_le_abs
  have h2 : |Real.cos ((x + y) / 2)| ≤ 1 := Real.abs_cos_le_one _
  have h3 : |(x - y) / 2| = |x - y| / 2 := by rw [abs_div, abs_two]
  have h4 : 0 ≤ |Real.sin ((x - y) / 2)| := abs_nonneg _
  nlinarith [abs_nonneg (Real.cos ((x + y) / 2)), abs_nonneg (x - y)]

theorem abs_cos_sub_cos_le (x y : ℝ) : |Real.cos x - Real.cos y| ≤ |x - y| := by
  rw [Real.cos_sub_cos, abs_mul, abs_mul, abs_neg, abs_two]
  have h1 : |Real.sin ((x - y) / 2)| ≤ |(x - y) / 2| := Real.abs_sin_le_abs
  have h2 : |Real.sin ((x + y) / 2)| ≤ 1 := Real.abs_sin_le_one _
  have h3 : |(x - y) / 2| = |x - y| / 2 := by rw [abs_div, abs_two]
  have h4 : 0 ≤ |Real.sin ((x - y) / 2)| := abs_nonneg _
  nlinarith [abs_nonneg (Real.sin ((x + y) / 2)), abs_nonneg (x - y)]

theorem sq_le_of_abs_le (x : ℝ) (hx : |x| ≤ 63 / 10) : x ^ 2 ≤ 3969 / 100 := by
  have h := pow_le_pow_left₀ (abs_nonneg x) hx 2
  rw [sq_abs] at h
  linarith [show ((63 : ℝ) / 10) ^ 2 = 3969 / 100 by norm_num]

theorem cos_error_le_of_abs_le (x : ℝ) (N : ℕ) (hN : 3 ≤ N) (hx : |x| ≤ 63 / 10) :
    |Real.cos x - taylor_cos N x| ≤ (63 / 10) ^ (2 * N) / ((2 * N).factorial : ℝ) := by
  have hN' : (3 : ℝ) ≤ N := by exact_mod_cast hN
  have h := cos_error_le x N (by nlinarith [sq_le_of_abs_le x hx])
  refine h.trans ?_
  rw [← (even_two_mul N).pow_abs x]
  exact div_le_div_of_nonneg_right (pow_le_pow_left₀ (abs_nonneg x) hx _) (Nat.cast_nonneg _)

theorem sin_error_le_of_abs_le (x : ℝ) (N : ℕ) (hN : 3 ≤ N) (hx : |x| ≤ 63 / 10) :
    |Real.sin x - taylor_sin N x| ≤ (63 / 10) ^ (2 * N + 1) / ((2 * N + 1).factorial : ℝ) := by
  have hN' : (3 : ℝ) ≤ N := by exact_mod_cast hN
  have h := sin_error_le x N (by nlinarith [sq_le_of_abs_le x hx])
  refine h.trans ?_
  exact div_le_div_of_nonneg_right (pow_le_pow_left₀ (abs_nonneg x) hx _) (Nat.cast_nonneg _)

theorem mag_30 : ((63 : ℝ) / 10) ^ (2 * 15) / ((2 * 15).factorial : ℝ) ≤ 4 / 10 ^ 9 := by
  norm_num [Nat.factorial]

theorem mag_31 : ((63 : ℝ) / 10) ^ (2 * 15 + 1) / ((2 * 15 + 1).factorial : ℝ) ≤ 1 / 10 ^ 9 := by
  norm_num [Nat.factorial]

theorem mag_100 : ((63 : ℝ) / 10) ^ (2 * 50) / ((2 * 50).factorial : ℝ) ≤ 1 / 10 ^ 12 := by
  norm_num [Nat.factorial]

theorem mag_101 : ((63 : ℝ) / 10) ^ (2 * 50 + 1) / ((2 * 50 + 1).factorial : ℝ) ≤ 1 / 10 ^ 12 := by
  norm_num [Nat.factorial]

theorem serial_cos_eq_taylor (x : ℝ) : serial_cos x = taylor_cos 50 x := rfl

theorem serial_sin_eq_taylor (x : ℝ) : serial_sin x = taylor_sin 50 x := rfl

theorem parallel_cos_eq_taylor (red : Reduction) (h : red.covers 15) (x : ℝ) :
    parallel_cos red x = taylor_cos 15 x := by
  rw [parallel_cos, zero_add, Reduction.eval_of_covers _ _ _ h, taylor_cos, foldl_range_eq_sum]

theorem parallel_sin_eq_taylor (red : Reduction) (h : red.covers 15) (x : ℝ) :
    parallel_sin red x = taylor_sin 15 x := by
  rw [parallel_sin, zero_add, Reduction.eval_of_covers _ _ _ h, taylor_sin, foldl_range_eq_sum]

theorem serial_cos_close (x : ℝ) (hx : |x| ≤ 63 / 10) :
    |Real.cos x - serial_cos x| ≤ 1 / 10 ^ 12 :=
  (cos_error_le_of_abs_le x 50 (by norm_num) hx).trans mag_100

theorem serial_sin_close (x : ℝ) (hx : |x| ≤ 63 / 10) :
    |Real.sin x - serial_sin x| ≤ 1 / 10 ^ 12 :=
  (sin_error_le_of_abs_le x 50 (by norm_num) hx).trans mag_101

theorem parallel_cos_close (red : Reduction) (h : red.covers 15) (x : ℝ) (hx : |x| ≤ 63 / 10) :
    |Real.cos x - parallel_cos red x| ≤ 4 / 10 ^ 9 := by
  rw [parallel_cos_eq_taylor red h]
  exact (cos_error_le_of_abs_le x 15 (by norm_num) hx).trans mag_30

theorem parallel_sin_close (red : Reduction) (h : red.covers 15) (x : ℝ) (hx : |x| ≤ 63 / 10) :
    |Real.sin x - parallel_sin red x| ≤ 1 / 10 ^ 9 := by
  rw [parallel_sin_eq_taylor red h]
  exact (sin_error_le_of_abs_le x 15 (by norm_num) hx).trans mag_31
theorem sample_angle_abs_le (d : ℝ) (h0 : 0 ≤ d) (h1 : d ≤ 360) :
    |degree_to_radians d| ≤ 63 / 10 := by
  have h : degree_to_radians d = d / 180 * 3.1415926535 := by
    simp only [degree_to_radians]; norm_num
  rw [h, abs_of_nonneg (by positivity)]
  norm_num
  linarith

theorem sample_angle_close (d : ℝ) (h0 : 0 ≤ d) (h1 : d ≤ 360) :
    |degree_to_radians d - d / 180 * Real.pi| ≤ 2 / 10 ^ 10 := by
  have h : degree_to_radians d - d / 180 * Real.pi =
      d / 180 * (3.1415926535 - Real.pi) := by
    simp only [degree_to_radians]; norm_num; ring
  have hlo := Real.pi_gt_d20
  have hhi := Real.pi_lt_d20
  rw [h, abs_le]
  constructor
  · have : d / 180 * (3.1415926535 - Real.pi) ≥ d / 180 * (-(1 / 10 ^ 10)) :=
      mul_le_mul_of_nonneg_left (by norm_num at hhi ⊢; linarith) (by positivity)
    norm_num at this ⊢
    linarith
  · have : d / 180 * (3.1415926535 - Real.pi) ≤ d / 180 * 0 :=
      mul_le_mul_of_nonneg_left (by norm_num at hlo ⊢; linarith) (by positivity)
    norm_num at this ⊢
    linarith

/-- On the sampled range the serial 50-term sums are within `1e-6` of the true
sine and cosine of the angle in degrees. -/
theorem serial_matches_degrees (d : ℝ) (h0 : 0 ≤ d) (h1 : d ≤ 360) :
    |serial_sin (degree_to_radians d) - Real.sin (d / 180 * Real.pi)| ≤ 1e-6 ∧
    |serial_cos (degree_to_radians d) - Real.cos (d / 180 * Real.pi)| ≤ 1e-6 := by
  have hx := sample_angle_abs_le d h0 h1
  have hc := sample_angle_close d h0 h1
  have hs1 := serial_sin_close _ hx
  have hc1 := serial_cos_close _ hx
  have hs2 := abs_sin_sub_sin_le (degree_to_radians d) (d / 180 * Real.pi)
  have hc2 := abs_cos_sub_cos_le (degree_to_radians d) (d / 180 * Real.pi)
  rw [abs_sub_comm] at hs1 hc1
  constructor
  · calc |serial_sin (degree_to_radians d) - Real.sin (d / 180 * Real.pi)|
        ≤ |serial_sin (degree_to_radians d) - Real.sin (degree_to_radians d)| +
          |Real.sin (degree_to_radians d) - Real.sin (d / 180 * Real.pi)| :=
          abs_sub_le _ _ _
      _ ≤ 1 / 10 ^ 12 + 2 / 10 ^ 10 := add_le_add hs1 (hs2.trans hc)
      _ ≤ 1e-6 := by norm_num
  · calc |serial_cos (degree_to_radians d) - Real.cos (d / 180 * Real.pi)|
        ≤ |serial_cos (degree_to_radians d) - Real.cos (degree_to_radians d)| +
          |Real.cos (degree_to_radians d) - Real.cos (d / 180 * Real.pi)| :=
          abs_sub_le _ _ _
      _ ≤ 1 / 10 ^ 12 + 2 / 10 ^ 10 := add_le_add hc1 (hc2.trans hc)
      _ ≤ 1e-6 := by norm_num

theorem reference_values :
    Real.sin ((0 : ℝ) / 180 * Real.pi) = 0 ∧ Real.cos ((0 : ℝ) / 180 * Real.pi) = 1 ∧
    Real.sin ((90 : ℝ) / 180 * Real.pi) = 1 ∧ Real.cos ((90 : ℝ) / 180 * Real.pi) = 0 ∧
    Real.sin ((180 : ℝ) / 180 * Real.pi) = 0 ∧ Real.cos ((180 : ℝ) / 180 * Real.pi) = -1 ∧
    Real.sin ((270 : ℝ) / 180 * Real.pi) = -1 ∧ Real.cos ((270 : ℝ) / 180 * Real.pi) = 0 := by
  have e90 : (90 : ℝ) / 180 * Real.pi = Real.pi / 2 := by ring
  have e180 : (180 : ℝ) / 180 * Real.pi = Real.pi := by ring
  have e270 : (270 : ℝ) / 180 * Real.pi = Real.pi / 2 + Real.pi := by ring
  refine ⟨by simp, by simp, ?_, ?_, ?_, ?_, ?_, ?_⟩
  · rw [e90, Real.sin_pi_div_two]
  · rw [e90, Real.cos_pi_div_two]
  · rw [e180, Real.sin_pi]
  · rw [e180, Real.cos_pi]
  · rw [e270, Real.sin_add_pi, Real.sin_pi_div_two]
  · rw [e270, Real.cos_add_pi, Real.cos_pi_div_two, neg_zero]

/-- A point whose coordinates are `150` times values close to a true cosine and
sine lies within `6e-4` of the circle of radius 150. -/
theorem near_circle (C S c s δ : ℝ) (h : C ^ 2 + S ^ 2 = 1) (hc : |C - c| ≤ δ) (hs : |S - s| ≤ δ)
    (hδ : δ ≤ 4 / 10 ^ 9) :
    |(150 * c) ^ 2 + (150 * s) ^ 2 - 150 ^ 2| ≤ 6 / 10 ^ 4 ∧ |c| ≤ 1 + δ ∧ |s| ≤ 1 + δ := by
  have hδ0 : 0 ≤ δ := (abs_nonneg _).trans hc
  have hC : |C| ≤ 1 := by
    rw [← sq_le_one_iff_abs_le_one]; nlinarith [sq_nonneg S]
  have hS : |S| ≤ 1 := by
    rw [← sq_le_one_iff_abs_le_one]; nlinarith [sq_nonneg C]
  rw [abs_le] at hc hs hC hS
  have e : (150 * c) ^ 2 + (150 * s) ^ 2 - 150 ^ 2 =
      22500 * ((c - C) ^ 2 + (s - S) ^ 2 + 2 * (C * (c - C)) + 2 * (S * (s - S))) := by
    linear_combination 22500 * h
  have b1 : (c - C) ^ 2 ≤ δ ^ 2 := by
    apply sq_le_sq'; linarith; linarith
  have b2 : (s - S) ^ 2 ≤ δ ^ 2 := by
    apply sq_le_sq'; linarith; linarith
  have b3 : |C * (c - C)| ≤ δ := by
    rw [abs_mul]
    calc |C| * |c - C| ≤ 1 * δ := by
          apply mul_le_mul (abs_le.mpr hC) (abs_le.mpr ⟨by linarith, by linarith⟩)
            (abs_nonneg _) zero_le_one
      _ = δ := one_mul δ
  have b4 : |S * (s - S)| ≤ δ := by
    rw [abs_mul]
    calc |S| * |s - S| ≤ 1 * δ := by
          apply mul_le_mul (abs_le.mpr hS) (abs_le.mpr ⟨by linarith, by linarith⟩)
            (abs_nonneg _) zero_le_one
      _ = δ := one_mul δ
  rw [abs_le] at b3 b4
  have hδ2 : δ ^ 2 ≤ δ := by
    rw [sq]
    exact mul_le_of_le_one_right hδ0 (by linarith)
  have key : ∀ u v w z : ℝ, 0 ≤ u → u ≤ δ → 0 ≤ v → v ≤ δ → -δ ≤ w → w ≤ δ → -δ ≤ z → z ≤ δ →
      |22500 * (u + v + 2 * w + 2 * z)| ≤ 6 / 10 ^ 4 := by
    intro u v w z hu0 hu hv0 hv hw0 hw hz0 hz
    rw [abs_le]
    constructor <;> norm_num <;> linarith
  refine ⟨?_, ?_, ?_⟩
  · rw [e]
    exact key _ _ _ _ (sq_nonneg _) (b1.trans hδ2) (sq_nonneg _) (b2.trans hδ2) b3.1 b3.2
      b4.1 b4.2
  · rw [abs_le]; constructor <;> linarith
  · rw [abs_le]; constructor <;> linarith
/-! ## When one more term improves the approximation -/

/-- One more term does not increase the truncation error of an alternating
series whose consecutive terms have ratios `r n`, under a condition on three
consecutive ratios. -/
theorem alternating_error_step_of_ratios (a r : ℕ → ℝ) (L : ℝ) (N : ℕ)
    (hsum : HasSum (fun n => (-1) ^ n * a n) L)
    (ha : ∀ n, 0 ≤ a n) (hr : ∀ n, a (n + 1) = a n * r n)
    (hr1 : ∀ n, N + 1 ≤ n → r n ≤ 1)
    (hcond : 2 * r N * (1 - r (N + 1) * (1 - r (N + 2))) ≤ 1) :
    |L - ∑ i ∈ Finset.range (N + 1), (-1) ^ i * a i| ≤
      |L - ∑ i ∈ Finset.range N, (-1) ^ i * a i| := by
  apply alternating_error_step a L N hsum
  · intro n hn
    rw [hr n]
    exact mul_le_of_le_one_right (ha n) (hr1 n hn)
  · have e1 : a (N + 1) = a N * r N := hr N
    have e2 : a (N + 2) = a N * r N * r (N + 1) := by rw [hr (N + 1), e1]
    have e3 : a (N + 3) = a N * r N * r (N + 1) * r (N + 2) := by rw [hr (N + 2), e2]
    rw [e1, e2, e3]
    have h := mul_le_mul_of_nonneg_left hcond (ha N)
    linarith

theorem ratio_condition (r0 r1 r2 : ℝ) (h0 : 0 ≤ r0) (h0' : r0 ≤ 1 / 2) (h1 : 0 ≤ r1)
    (h1' : r1 ≤ 1) (h2 : 0 ≤ r2) (h2' : r2 ≤ 1) : 2 * r0 * (1 - r1 * (1 - r2)) ≤ 1 := by
  have hp : 0 ≤ r1 * (1 - r2) := mul_nonneg h1 (by linarith)
  have hq : 1 - r1 * (1 - r2) ≤ 1 := by linarith
  have hq0 : 0 ≤ 1 - r1 * (1 - r2) := by nlinarith
  nlinarith

theorem cos_ratio_condition (t : ℝ) (N : ℕ) (hN : 3 ≤ N) (ht0 : 0 ≤ t) (ht : t ≤ 3969 / 100) :
    2 * (t / ((2 * (N : ℝ) + 1) * (2 * N + 2))) *
      (1 - t / ((2 * ((N + 1 : ℕ) : ℝ) + 1) * (2 * ((N + 1 : ℕ) : ℝ) + 2)) *
        (1 - t / ((2 * ((N + 2 : ℕ) : ℝ) + 1) * (2 * ((N + 2 : ℕ) : ℝ) + 2)))) ≤ 1 := by
  rcases Nat.eq_or_lt_of_le hN with h3 | h4
  · subst h3
    norm_num
    have hmono : 0 ≤ (3969 / 100 - t) * (90 - 3969 / 100 - t) :=
      mul_nonneg (by linarith) (by linarith)
    have hcube : t ^ 3 ≤ (3969 / 100) ^ 3 := pow_le_pow_left₀ ht0 ht 3
    have e : t / 56 * (1 - t / 90 * (1 - t / 132)) =
        (t - t ^ 2 / 90 + t ^ 3 / 11880) / 56 := by ring
    rw [show 2 * (t / 56) * (1 - t / 90 * (1 - t / 132)) =
      2 * (t / 56 * (1 - t / 90 * (1 - t / 132))) by ring, e]
    norm_num at hcube
    nlinarith
  · have hN4 : (4 : ℝ) ≤ N := by exact_mod_cast h4
    push_cast
    apply ratio_condition
    · positivity
    · rw [div_le_iff₀ (by positivity)]; nlinarith
    · positivity
    · rw [div_le_one (by positivity)]; nlinarith
    · positivity
    · rw [div_le_one (by positivity)]; nlinarith

theorem sin_ratio_condition (t : ℝ) (N : ℕ) (hN : 3 ≤ N) (ht0 : 0 ≤ t) (ht : t ≤ 3969 / 100) :
    2 * (t / ((2 * (N : ℝ) + 2) * (2 * N + 3))) *
      (1 - t / ((2 * ((N + 1 : ℕ) : ℝ) + 2) * (2 * ((N + 1 : ℕ) : ℝ) + 3)) *
        (1 - t / ((2 * ((N + 2 : ℕ) : ℝ) + 2) * (2 * ((N + 2 : ℕ) : ℝ) + 3)))) ≤ 1 := by
  rcases Nat.eq_or_lt_of_le hN with h3 | h4
  · subst h3
    norm_num
    have hmono : 0 ≤ (3969 / 100 - t) * (110 - 3969 / 100 - t) :=
      mul_nonneg (by linarith) (by linarith)
    have hcube : t ^ 3 ≤ (3969 / 100) ^ 3 := pow_le_pow_left₀ ht0 ht 3
    have e : t / 72 * (1 - t / 110 * (1 - t / 156)) =
        (t - t ^ 2 / 110 + t ^ 3 / 17160) / 72 := by ring
    rw [show 2 * (t / 72) * (1 - t / 110 * (1 - t / 156)) =
      2 * (t / 72 * (1 - t / 110 * (1 - t / 156))) by ring, e]
    norm_num at hcube
    nlinarith
  · have hN4 : (4 : ℝ) ≤ N := by exact_mod_cast h4
    push_cast
    apply ratio_condition
    · positivity
    · rw [div_le_iff₀ (by positivity)]; nlinarith
    · positivity
    · rw [div_le_one (by positivity)]; nlinarith
    · positivity
    · rw [div_le_one (by positivity)]; nlinarith

theorem sq_le_of_abs_lt_two_pi (x : ℝ) (hx : |x| < 2 * Real.pi) : x ^ 2 ≤ 3969 / 100 :=
  sq_le_of_abs_le x (by linarith [Real.pi_lt_d2, show (3.15 : ℝ) = 315 / 100 by norm_num])

/-- For `|x| < 2π` and `N ≥ 3`, the `(N+1)`-term cosine sum is at least as
accurate as the `N`-term sum. -/
theorem cos_error_step (x : ℝ) (N : ℕ) (hN : 3 ≤ N) (hx : |x| < 2 * Real.pi) :
    |Real.cos x - taylor_cos (N + 1) x| ≤ |Real.cos x - taylor_cos N x| := by
  have ht := sq_le_of_abs_lt_two_pi x hx
  have hN' : (3 : ℝ) ≤ N := by exact_mod_cast hN
  rw [taylor_cos_eq_sum, taylor_cos_eq_sum]
  refine alternating_error_step_of_ratios (fun n => x ^ (2 * n) / ((2 * n).factorial : ℝ))
    (fun n => x ^ 2 / ((2 * (n : ℝ) + 1) * (2 * n + 2))) _ N (hasSum_cos_terms x)
    (cos_mag_nonneg x) (cos_mag_succ x) ?_ (cos_ratio_condition _ N hN (sq_nonneg x) ht)
  intro n hn
  have hn' : (N : ℝ) + 1 ≤ n := by exact_mod_cast hn
  show x ^ 2 / ((2 * (n : ℝ) + 1) * (2 * n + 2)) ≤ 1
  rw [div_le_one (by positivity)]
  nlinarith

/-- For `|x| < 2π` and `N ≥ 3`, the `(N+1)`-term sine sum is at least as
accurate as the `N`-term sum. -/
theorem sin_error_step (x : ℝ) (N : ℕ) (hN : 3 ≤ N) (hx : |x| < 2 * Real.pi) :
    |Real.sin x - taylor_sin (N + 1) x| ≤ |Real.sin x - taylor_sin N x| := by
  have ht := sq_le_of_abs_lt_two_pi x hx
  have hN' : (3 : ℝ) ≤ N := by exact_mod_cast hN
  rw [sin_error_abs, sin_error_abs N, taylor_sin_eq_sum, taylor_sin_eq_sum]
  refine alternating_error_step_of_ratios
    (fun n => |x| ^ (2 * n + 1) / ((2 * n + 1).factorial : ℝ))
    (fun n => x ^ 2 / ((2 * (n : ℝ) + 2) * (2 * n + 3))) _ N (hasSum_sin_terms |x|)
    (sin_mag_nonneg x) (fun n => by beta_reduce; rw [sin_mag_succ, sq_abs]) ?_
    (sin_ratio_condition _ N hN (sq_nonneg x) ht)
  intro n hn
  have hn' : (N : ℝ) + 1 ≤ n := by exact_mod_cast hn
  show x ^ 2 / ((2 * (n : ℝ) + 2) * (2 * n + 3)) ≤ 1
  rw [div_le_one (by positivity)]
  nlinarith
theorem taylor_zero_one (x : ℝ) :
    taylor_cos 0 x = 0 ∧ taylor_cos 1 x = 1 ∧ taylor_sin 0 x = 0 ∧ taylor_sin 1 x = x := by
  refine ⟨rfl, ?_, rfl, ?_⟩
  · simp [taylor_cos, cos_term, pow, tgamma, List.range_succ]
  · simp [taylor_sin, sin_term, pow, tgamma, List.range_succ]

theorem taylor_at_six :
    taylor_cos 1 (6 : ℝ) = 1 ∧ taylor_cos 2 (6 : ℝ) = -17 ∧ taylor_cos 3 (6 : ℝ) = 37 ∧
    taylor_sin 1 (6 : ℝ) = 6 ∧ taylor_sin 2 (6 : ℝ) = -30 ∧ taylor_sin 3 (6 : ℝ) = 174 / 5 := by
  refine ⟨?_, ?_, ?_, ?_, ?_, ?_⟩ <;>
    simp [taylor_cos, taylor_sin, cos_term, sin_term, pow, tgamma, List.range_succ,
      Nat.factorial] <;> norm_num

/-- Below three terms the improvement can fail inside `|x| < 2π`: at `x = 6` the
two-term sums are worse than the one-term sums and the three-term sums are
worse than the two-term sums. -/
theorem improvement_fails_below_three :
    |(6 : ℝ)| < 2 * Real.pi ∧
    ¬ (|Real.cos 6 - taylor_cos (1 + 1) 6| ≤ |Real.cos 6 - taylor_cos 1 6|) ∧
    ¬ (|Real.cos 6 - taylor_cos (2 + 1) 6| ≤ |Real.cos 6 - taylor_cos 2 6|) ∧
    ¬ (|Real.sin 6 - taylor_sin (1 + 1) 6| ≤ |Real.sin 6 - taylor_sin 1 6|) ∧
    ¬ (|Real.sin 6 - taylor_sin (2 + 1) 6| ≤ |Real.sin 6 - taylor_sin 2 6|) := by
  obtain ⟨c1, c2, c3, s1, s2, s3⟩ := taylor_at_six
  obtain ⟨hc0, hc1⟩ := abs_le.mp (Real.abs_cos_le_one 6)
  obtain ⟨hs0, hs1⟩ := abs_le.mp (Real.abs_sin_le_one 6)
  have hpi := Real.pi_gt_three
  norm_num only [c1, c2, c3, s1, s2, s3]
  refine ⟨?_, ?_, ?_, ?_, ?_⟩
  · rw [abs_of_pos (by norm_num)]; linarith
  · rw [not_le, abs_of_nonpos (by linarith), abs_of_nonneg (by linarith)]; linarith
  · rw [not_le, abs_of_nonneg (by linarith), abs_of_nonpos (by linarith)]; linarith
  · rw [not_le, abs_of_nonpos (by linarith), abs_of_nonneg (by linarith)]; linarith
  · rw [not_le, abs_of_nonneg (by linarith), abs_of_nonpos (by linarith)]; linarith

/-! ## Claims about accuracy -/

/-- C5: at 0, 90, 180 and 270 degrees the serial 50-term sums, evaluated at
`degree_to_radians d`, are within `1e-6` of the reference values `0, 1, 0, -1`
(sine) and `1, 0, -1, 0` (cosine), which are the true sine and cosine of the
angles. -/
theorem C5_serial_reference_angles :
    (|serial_sin (degree_to_radians (0 : ℝ)) - 0| ≤ 1e-6 ∧
      |serial_cos (degree_to_radians (0 : ℝ)) - 1| ≤ 1e-6) ∧
    (|serial_sin (degree_to_radians (90 : ℝ)) - 1| ≤ 1e-6 ∧
      |serial_cos (degree_to_radians (90 : ℝ)) - 0| ≤ 1e-6) ∧
    (|serial_sin (degree_to_radians (180 : ℝ)) - 0| ≤ 1e-6 ∧
      |serial_cos (degree_to_radians (180 : ℝ)) - (-1)| ≤ 1e-6) ∧
    (|serial_sin (degree_to_radians (270 : ℝ)) - (-1)| ≤ 1e-6 ∧
      |serial_cos (degree_to_radians (270 : ℝ)) - 0| ≤ 1e-6) ∧
    Real.sin ((0 : ℝ) / 180 * Real.pi) = 0 ∧ Real.cos ((0 : ℝ) / 180 * Real.pi) = 1 ∧
    Real.sin ((90 : ℝ) / 180 * Real.pi) = 1 ∧ Real.cos ((90 : ℝ) / 180 * Real.pi) = 0 ∧
    Real.sin ((180 : ℝ) / 180 * Real.pi) = 0 ∧ Real.cos ((180 : ℝ) / 180 * Real.pi) = -1 ∧
    Real.sin ((270 : ℝ) / 180 * Real.pi) = -1 ∧ Real.cos ((270 : ℝ) / 180 * Real.pi) = 0 := by
  obtain ⟨r1, r2, r3, r4, r5, r6, r7, r8⟩ := reference_values
  have h0 := serial_matches_degrees 0 (by norm_num) (by norm_num)
  have h90 := serial_matches_degrees 90 (by norm_num) (by norm_num)
  have h180 := serial_matches_degrees 180 (by norm_num) (by norm_num)
  have h270 := serial_matches_degrees 270 (by norm_num) (by norm_num)
  rw [r1, r2] at h0
  rw [r3, r4] at h90
  rw [r5, r6] at h180
  rw [r7, r8] at h270
  exact ⟨h0, h90, h180, h270, r1, r2, r3, r4, r5, r6, r7, r8⟩

/-- C6 fails as stated: at `x = π` (inside `|x| < 2π`) and `N = 0`, going from
the 0-term sum to the 1-term sum increases the error of the cosine from 1 to 2
and the error of the sine from 0 to `π`. -/
theorem C6_counterexample :
    |Real.pi| < 2 * Real.pi ∧
    taylor_cos 0 Real.pi = 0 ∧ taylor_cos (0 + 1) Real.pi = 1 ∧ Real.cos Real.pi = -1 ∧
    taylor_sin 0 Real.pi = 0 ∧ taylor_sin (0 + 1) Real.pi = Real.pi ∧ Real.sin Real.pi = 0 ∧
    ¬ (|Real.cos Real.pi - taylor_cos (0 + 1) Real.pi| ≤
        |Real.cos Real.pi - taylor_cos 0 Real.pi|) ∧
    ¬ (|Real.sin Real.pi - taylor_sin (0 + 1) Real.pi| ≤
        |Real.sin Real.pi - taylor_sin 0 Real.pi|) := by
  obtain ⟨c0, c1, s0, s1⟩ := taylor_zero_one Real.pi
  have hpi := Real.pi_pos
  refine ⟨by rw [abs_of_pos hpi]; linarith, c0, c1, Real.cos_pi, s0, s1, Real.sin_pi, ?_, ?_⟩
  · rw [show (0 + 1 : ℕ) = 1 from rfl, c0, c1, Real.cos_pi]
    norm_num
  · rw [show (0 + 1 : ℕ) = 1 from rfl, s0, s1, Real.sin_pi]
    simp
    exact hpi.ne'

/-- C6 (amended): for every real `x` with `|x| < 2π` and every `N ≥ 3`, the
`(N+1)`-term sums of the loops of `serial_cos` / `serial_sin` are at least as
accurate as the `N`-term sums; the program's sums are the cases `N = 50` and
`N = 15`. -/
theorem C6_taylor_improves_from_three (x : ℝ) (N : ℕ) (hx : |x| < 2 * Real.pi) (hN : 3 ≤ N) :
    |Real.cos x - taylor_cos (N + 1) x| ≤ |Real.cos x - taylor_cos N x| ∧
    |Real.sin x - taylor_sin (N + 1) x| ≤ |Real.sin x - taylor_sin N x| ∧
    serial_cos x = taylor_cos 50 x ∧ serial_sin x = taylor_sin 50 x ∧
    parallel_cos (.worker (List.range 15)) x = taylor_cos 15 x ∧
    parallel_sin (.worker (List.range 15)) x = taylor_sin 15 x :=
  ⟨cos_error_step x N hN hx, sin_error_step x N hN hx, rfl, rfl,
    parallel_cos_eq_taylor _ (worker_range_covers 15) x,
    parallel_sin_eq_taylor _ (worker_range_covers 15) x⟩

/-- Witness for the amended C6 at `x = 1`, `N = 3`. -/
theorem C6_taylor_improves_from_three_witness :
    |(1 : ℝ)| < 2 * Real.pi ∧ 3 ≤ 3 ∧
    |Real.cos 1 - taylor_cos (3 + 1) 1| ≤ |Real.cos 1 - taylor_cos 3 1| ∧
    |Real.sin 1 - taylor_sin (3 + 1) 1| ≤ |Real.sin 1 - taylor_sin 3 1| :=
  have h : |(1 : ℝ)| < 2 * Real.pi := by
    rw [abs_one]; linarith [Real.pi_gt_three]
  ⟨h, le_refl 3, (C6_taylor_improves_from_three 1 3 h (le_refl 3)).1,
    (C6_taylor_improves_from_three 1 3 h (le_refl 3)).2.1⟩
/-- C7: for every real `x` with `|x| ≤ 2 * 3.1415926535` and all reductions
covering the 15 iterations, `serial_cos x - parallel_cos x` is exactly the sum
of the terms `i = 15..49` and is at most `1e-8` in absolute value; likewise for
the sine. -/
theorem C7_serial_parallel_agree (x : ℝ) (redc reds : Reduction) (hc : redc.covers 15)
    (hs : reds.covers 15) (hx : |x| ≤ 2 * 3.1415926535) :
    serial_cos x - parallel_cos redc x =
      ∑ i ∈ Finset.Ico 15 50, (-1) ^ i * x ^ (2 * i) / ((2 * i).factorial : ℝ) ∧
    |serial_cos x - parallel_cos redc x| ≤ 1e-8 ∧
    serial_sin x - parallel_sin reds x =
      ∑ i ∈ Finset.Ico 15 50, (-1) ^ i * x ^ (2 * i + 1) / ((2 * i + 1).factorial : ℝ) ∧
    |serial_sin x - parallel_sin reds x| ≤ 1e-8 := by
  have hx' : |x| ≤ 63 / 10 := hx.trans (by norm_num)
  have c50 := serial_cos_close x hx'
  have s50 := serial_sin_close x hx'
  have c15 := parallel_cos_close redc hc x hx'
  have s15 := parallel_sin_close reds hs x hx'
  rw [abs_sub_comm] at c50 s50
  refine ⟨?_, ?_, ?_, ?_⟩
  · rw [serial_cos_eq_sum, parallel_cos_eq_sum redc hc,
      Finset.sum_Ico_eq_sub _ (by norm_num : 15 ≤ 50)]
  · calc |serial_cos x - parallel_cos redc x|
        ≤ |serial_cos x - Real.cos x| + |Real.cos x - parallel_cos redc x| := abs_sub_le _ _ _
      _ ≤ 1 / 10 ^ 12 + 4 / 10 ^ 9 := add_le_add c50 c15
      _ ≤ 1e-8 := by norm_num
  · rw [serial_sin_eq_sum, parallel_sin_eq_sum reds hs,
      Finset.sum_Ico_eq_sub _ (by norm_num : 15 ≤ 50)]
  · calc |serial_sin x - parallel_sin reds x|
        ≤ |serial_sin x - Real.sin x| + |Real.sin x - parallel_sin reds x| := abs_sub_le _ _ _
      _ ≤ 1 / 10 ^ 12 + 1 / 10 ^ 9 := add_le_add s50 s15
      _ ≤ 1e-8 := by norm_num

/-- Witness for C7 at `x = 3` with the four-worker reduction for the cosine and
a single worker for the sine. -/
theorem C7_serial_parallel_agree_witness :
    Reduction.fourWorkers.covers 15 ∧ (Reduction.worker (List.range 15)).covers 15 ∧
    |(3 : ℝ)| ≤ 2 * 3.1415926535 ∧
    |serial_cos (3 : ℝ) - parallel_cos Reduction.fourWorkers 3| ≤ 1e-8 ∧
    |serial_sin (3 : ℝ) - parallel_sin (Reduction.worker (List.range 15)) 3| ≤ 1e-8 :=
  have h : |(3 : ℝ)| ≤ 2 * 3.1415926535 := by
    rw [abs_of_pos (by norm_num)]; norm_num
  ⟨fourWorkers_covers, worker_range_covers 15, h,
    (C7_serial_parallel_agree 3 _ _ fourWorkers_covers (worker_range_covers 15) h).2.1,
    (C7_serial_parallel_agree 3 _ _ fourWorkers_covers (worker_range_covers 15) h).2.2.2⟩

/-! ## The stored single-precision points -/

/-- The stored point: both coordinates are `150` times a value close to a true
cosine or sine, plus the offset `o`, then moved by at most `2^-16` by the
conversion to `float`. -/
theorem near_circle_rounded (C S c s X Y o : ℝ) (h : C ^ 2 + S ^ 2 = 1)
    (hc : |C - c| ≤ 4 / 10 ^ 9) (hs : |S - s| ≤ 4 / 10 ^ 9)
    (hX : |X - (150 * c + o)| ≤ 1 / 2 ^ 16) (hY : |Y - (150 * s + o)| ≤ 1 / 2 ^ 16) :
    |(X - o) ^ 2 + (Y - o) ^ 2 - 150 ^ 2| ≤ 1e-2 ∧
    (o - 151 ≤ X ∧ X ≤ o + 151) ∧ (o - 151 ≤ Y ∧ Y ≤ o + 151) := by
  obtain ⟨hA, hc1, hs1⟩ := near_circle C S c s _ h hc hs le_rfl
  have b1 : |c * (X - (150 * c + o))| ≤ (1 + 4 / 10 ^ 9) * (1 / 2 ^ 16) := by
    rw [abs_mul]
    exact mul_le_mul hc1 hX (abs_nonneg _) (by norm_num)
  have b2 : |s * (Y - (150 * s + o))| ≤ (1 + 4 / 10 ^ 9) * (1 / 2 ^ 16) := by
    rw [abs_mul]
    exact mul_le_mul hs1 hY (abs_nonneg _) (by norm_num)
  have b3 : (X - (150 * c + o)) ^ 2 ≤ (1 / 2 ^ 16) ^ 2 := sq_le_sq' (abs_le.mp hX).1 (abs_le.mp hX).2
  have b4 : (Y - (150 * s + o)) ^ 2 ≤ (1 / 2 ^ 16) ^ 2 := sq_le_sq' (abs_le.mp hY).1 (abs_le.mp hY).2
  have e : (X - o) ^ 2 + (Y - o) ^ 2 - 150 ^ 2 =
      ((150 * c) ^ 2 + (150 * s) ^ 2 - 150 ^ 2) + 300 * (c * (X - (150 * c + o))) +
        300 * (s * (Y - (150 * s + o))) + (X - (150 * c + o)) ^ 2 +
        (Y - (150 * s + o)) ^ 2 := by ring
  have key : ∀ a u v w z : ℝ, |a| ≤ 6 / 10 ^ 4 → |u| ≤ (1 + 4 / 10 ^ 9) * (1 / 2 ^ 16) →
      |v| ≤ (1 + 4 / 10 ^ 9) * (1 / 2 ^ 16) → 0 ≤ w → w ≤ (1 / 2 ^ 16) ^ 2 → 0 ≤ z →
      z ≤ (1 / 2 ^ 16) ^ 2 → |a + 300 * u + 300 * v + w + z| ≤ 1e-2 := by
    intro a u v w z ha hu hv hw0 hw hz0 hz
    rw [abs_le] at ha hu hv ⊢
    constructor <;> norm_num at ha hu hv hw hz ⊢ <;> linarith
  rw [abs_le] at hc1 hs1 hX hY
  refine ⟨?_, ⟨?_, ?_⟩, ⟨?_, ?_⟩⟩
  · rw [e]
    exact key _ _ _ _ _ hA b1 b2 (sq_nonneg _) b3 (sq_nonneg _) b4
  all_goals (norm_num at hc1 hs1 hX hY ⊢; linarith)

theorem abs_lt_512_of_near (c o : ℝ) (hc : |c| ≤ 1 + 4 / 10 ^ 9) (ho1 : 0 ≤ o) (ho2 : o ≤ 300) :
    |150 * c + o| < 512 := by
  rw [abs_le] at hc
  rw [abs_lt]
  constructor <;> norm_num at hc ⊢ <;> linarith

/-! ## The serial point stored at index 1 -/

theorem sample_angle_one :
    ((1 : ℕ) : ℝ) / 180 * 3.1415926535 = 6283185307 / 360000000000 := by norm_num

/-- The unrounded coordinates of the serial point at index 1, in units of the
last place `2^-15`, lie strictly between consecutive integers. -/
theorem serial_values_one :
    (38 / 100 < (150 * serial_cos (6283185307 / 360000000000 : ℝ) + 290) * 32768 - 14417171 ∧
      (150 * serial_cos (6283185307 / 360000000000 : ℝ) + 290) * 32768 - 14417171 < 40 / 100) ∧
    (6 / 100 < (150 * serial_sin (6283185307 / 360000000000 : ℝ) + 290) * 32768 - 9588502 ∧
      (150 * serial_sin (6283185307 / 360000000000 : ℝ) + 290) * 32768 - 9588502 < 8 / 100) := by
  have hx : |(6283185307 / 360000000000 : ℝ)| ≤ 63 / 10 := by
    rw [abs_of_pos (by norm_num)]; norm_num
  have hc50 := abs_le.mp (serial_cos_close _ hx)
  have hs50 := abs_le.mp (serial_sin_close _ hx)
  have hc3 := abs_le.mp (cos_error_le (6283185307 / 360000000000 : ℝ) 3 (by norm_num))
  have hs3 := abs_le.mp (sin_error_le (6283185307 / 360000000000 : ℝ) 3 (by norm_num))
  rw [taylor_cos_eq_sum] at hc3
  rw [taylor_sin_eq_sum, abs_of_pos (by norm_num)] at hs3
  norm_num [Finset.sum_range_succ, Nat.factorial] at hc3 hs3
  obtain ⟨hc3l, hc3u⟩ := hc3
  obtain ⟨hs3l, hs3u⟩ := hs3
  obtain ⟨hc50l, hc50u⟩ := hc50
  obtain ⟨hs50l, hs50u⟩ := hs50
  norm_num at hc50l hc50u hs50l hs50u
  refine ⟨⟨?_, ?_⟩, ⟨?_, ?_⟩⟩ <;> linarith

/-- The point the serial sampler stores at index 1. -/
theorem serial_element_one (buf : List (ℝ × ℝ)) :
    (compute_circle_points_serial buf)[1]? = some (14417171 / 32768, 9588502 / 32768) := by
  obtain ⟨⟨hx1, hx2⟩, ⟨hy1, hy2⟩⟩ := serial_values_one
  rw [compute_circle_points_serial_eq, getElem?_map_range _ _ _ (by norm_num),
    serial_point_eq, sample_angle_one]
  have hX : static_cast_float (150 * serial_cos (6283185307 / 360000000000 : ℝ) + 290) =
      ((14417171 : ℤ) : ℝ) / 32768 := by
    apply static_cast_float_of_near
    · rw [abs_of_pos (by linarith)]; linarith
    · rw [abs_of_pos (by linarith)]; linarith
    · rw [abs_lt]; constructor <;> push_cast <;> linarith
  have hY : static_cast_float (150 * serial_sin (6283185307 / 360000000000 : ℝ) + 290) =
      ((9588502 : ℤ) : ℝ) / 32768 := by
    apply static_cast_float_of_near
    · rw [abs_of_pos (by linarith)]; linarith
    · rw [abs_of_pos (by linarith)]; linarith
    · rw [abs_lt]; constructor <;> push_cast <;> linarith
  rw [hX, hY]
  norm_num
/-! ## Claims about the stored single-precision points -/

/-- C3 fails as stated: the serial sampler stores at index 1 the single-precision
point `(14417171 / 2^15, 9588502 / 2^15)`, which is not
`(150 * serial_cos t + 290, 150 * serial_sin t + 290)` for
`t = (1 / 180) * 3.1415926535`. -/
theorem C3_counterexample :
    (compute_circle_points_serial ([] : List (ℝ × ℝ)))[1]? =
      some (14417171 / 32768, 9588502 / 32768) ∧
    (compute_circle_points_serial ([] : List (ℝ × ℝ)))[1]? ≠
      some (150 * serial_cos (((1 : ℕ) : ℝ) / 180 * 3.1415926535) + 290,
            150 * serial_sin (((1 : ℕ) : ℝ) / 180 * 3.1415926535) + 290) := by
  refine ⟨serial_element_one [], ?_⟩
  rw [serial_element_one, sample_angle_one]
  obtain ⟨⟨hx1, _⟩, _⟩ := serial_values_one
  intro h
  have hfst := congrArg Prod.fst (Option.some.inj h)
  simp only at hfst
  rw [← hfst] at hx1
  norm_num at hx1

/-- C3 (amended): the serial sampler produces exactly `num_points = 361` points
and its element `i` (`0 ≤ i ≤ 360`) is the conversion to `float` of
`(150 * serial_cos t + 290, 150 * serial_sin t + 290)` with
`t = degree_to_radians i = (i / 180) * 3.1415926535`; under every admissible
schedule the parallel sampler produces 361 points and its element `i` is the
conversion to `float` of `(150 * parallel_cos t + 300, 150 * parallel_sin t + 300)`;
every stored coordinate is within `2^-16` of the unconverted value, and the serial
centre is the parallel centre shifted by `-10` in both axes. -/
theorem C3_sampler_points_float (bufS bufP : List (ℝ × ℝ)) (s : Schedule) (i : ℕ)
    (hs : s.admissible) (hi : i ≤ 360) :
    num_points = 361 ∧
    (compute_circle_points_serial bufS).length = 361 ∧
    (compute_circle_points_parallel s bufP).length = 361 ∧
    degree_to_radians ((i : ℝ) * angle_step) = ((i : ℝ) / 180) * 3.1415926535 ∧
    (compute_circle_points_serial bufS)[i]? =
      some (static_cast_float (150 * serial_cos (((i : ℝ) / 180) * 3.1415926535) + 290),
            static_cast_float (150 * serial_sin (((i : ℝ) / 180) * 3.1415926535) + 290)) ∧
    (compute_circle_points_parallel s bufP)[i]? =
      some (static_cast_float
              (150 * parallel_cos (s.cosRed i) (((i : ℝ) / 180) * 3.1415926535) + 300),
            static_cast_float
              (150 * parallel_sin (s.sinRed i) (((i : ℝ) / 180) * 3.1415926535) + 300)) ∧
    |static_cast_float (150 * serial_cos (((i : ℝ) / 180) * 3.1415926535) + 290) -
        (150 * serial_cos (((i : ℝ) / 180) * 3.1415926535) + 290)| ≤ 1 / 2 ^ 16 ∧
    |static_cast_float (150 * serial_sin (((i : ℝ) / 180) * 3.1415926535) + 290) -
        (150 * serial_sin (((i : ℝ) / 180) * 3.1415926535) + 290)| ≤ 1 / 2 ^ 16 ∧
    |static_cast_float
          (150 * parallel_cos (s.cosRed i) (((i : ℝ) / 180) * 3.1415926535) + 300) -
        (150 * parallel_cos (s.cosRed i) (((i : ℝ) / 180) * 3.1415926535) + 300)| ≤
      1 / 2 ^ 16 ∧
    |static_cast_float
          (150 * parallel_sin (s.sinRed i) (((i : ℝ) / 180) * 3.1415926535) + 300) -
        (150 * parallel_sin (s.sinRed i) (((i : ℝ) / 180) * 3.1415926535) + 300)| ≤
      1 / 2 ^ 16 ∧
    ((originX - 10 : ℤ), (originY - 10 : ℤ)) = (290, 290) ∧ (originX, originY) = (300, 300) := by
  have hlt : i < 361 := by omega
  have hrun : i < num_points.toNat := by rw [num_points_toNat]; exact hlt
  have hd0 : (0 : ℝ) ≤ (i : ℝ) := Nat.cast_nonneg i
  have hd1 : (i : ℝ) ≤ 360 := by exact_mod_cast hi
  have ht : degree_to_radians (i : ℝ) = (i : ℝ) / 180 * 3.1415926535 := by
    simp only [degree_to_radians]; norm_num
  have hx : |(i : ℝ) / 180 * 3.1415926535| ≤ 63 / 10 := by
    rw [← ht]; exact sample_angle_abs_le _ hd0 hd1
  obtain ⟨_, hS2, hS3⟩ := near_circle _ _ _ _ _ (Real.cos_sq_add_sin_sq _)
    ((serial_cos_close _ hx).trans (by norm_num : (1 : ℝ) / 10 ^ 12 ≤ 4 / 10 ^ 9))
    ((serial_sin_close _ hx).trans (by norm_num : (1 : ℝ) / 10 ^ 12 ≤ 4 / 10 ^ 9)) le_rfl
  obtain ⟨_, hP2, hP3⟩ := near_circle _ _ _ _ _ (Real.cos_sq_add_sin_sq _)
    (parallel_cos_close (s.cosRed i) (hs.2 i hrun).1 _ hx)
    ((parallel_sin_close (s.sinRed i) (hs.2 i hrun).2 _ hx).trans
      (by norm_num : (1 : ℝ) / 10 ^ 9 ≤ 4 / 10 ^ 9)) le_rfl
  rw [compute_circle_points_serial_eq, compute_circle_points_parallel_eq s hs.1]
  refine ⟨num_points_eq, by simp, by simp, degree_to_radians_index i, ?_, ?_,
    abs_static_cast_float_sub_le _ (abs_lt_512_of_near _ _ hS2 (by norm_num) (by norm_num)),
    abs_static_cast_float_sub_le _ (abs_lt_512_of_near _ _ hS3 (by norm_num) (by norm_num)),
    abs_static_cast_float_sub_le _ (abs_lt_512_of_near _ _ hP2 (by norm_num) (by norm_num)),
    abs_static_cast_float_sub_le _ (abs_lt_512_of_near _ _ hP3 (by norm_num) (by norm_num)),
    rfl, rfl⟩
  · rw [getElem?_map_range _ _ _ hlt, serial_point_eq]
  · rw [getElem?_map_range _ _ _ hlt, parallel_point_eq]

/-- Witness for the amended C3: index 90 under the backwards schedule, from an
empty serial vector and a parallel vector holding one stale point. -/
theorem C3_sampler_points_float_witness :
    Schedule.backwards.admissible ∧ 90 ≤ 360 ∧
    (compute_circle_points_serial ([] : List (ℝ × ℝ))).length = 361 ∧
    (compute_circle_points_parallel Schedule.backwards ([(1, 1)] : List (ℝ × ℝ))).length =
      361 ∧
    (compute_circle_points_serial ([] : List (ℝ × ℝ)))[90]? =
      some (static_cast_float (150 * serial_cos ((((90 : ℕ) : ℝ) / 180) * 3.1415926535) + 290),
            static_cast_float
              (150 * serial_sin ((((90 : ℕ) : ℝ) / 180) * 3.1415926535) + 290)) :=
  ⟨backwards_admissible, by decide,
    (C3_sampler_points_float [] [(1, 1)] Schedule.backwards 90 backwards_admissible
      (by decide)).2.1,
    (C3_sampler_points_float [] [(1, 1)] Schedule.backwards 90 backwards_admissible
      (by decide)).2.2.1,
    (C3_sampler_points_float [] [(1, 1)] Schedule.backwards 90 backwards_admissible
      (by decide)).2.2.2.2.1⟩

/-- C9 fails as stated: with `r = 16777217 = 2^24 + 1` and `j = 0` the function
`serial_parametric_x` returns `16777216` at angle 0, not `r + j`, and with
`k = 16777217` the function `serial_parametric_y` returns `16777216`, not `k`. -/
theorem C9_counterexample :
    serial_parametric_x 16777217 (0 : ℝ) 0 = 16777216 ∧
    serial_parametric_x 16777217 (0 : ℝ) 0 ≠ ((16777217 : ℤ) : ℝ) + ((0 : ℤ) : ℝ) ∧
    serial_parametric_y 150 (0 : ℝ) 16777217 = 16777216 ∧
    serial_parametric_y 150 (0 : ℝ) 16777217 ≠ ((16777217 : ℤ) : ℝ) := by
  have hx : serial_parametric_x 16777217 (0 : ℝ) 0 = 16777216 := by
    simp only [serial_parametric_x, serial_cos_zero]
    norm_num
    exact static_cast_float_tie
  have hy : serial_parametric_y 150 (0 : ℝ) 16777217 = 16777216 := by
    simp only [serial_parametric_y, serial_sin_zero]
    norm_num
    exact static_cast_float_tie
  refine ⟨hx, ?_, hy, ?_⟩
  · rw [hx]; norm_num
  · rw [hy]; norm_num

/-- C9 (amended): at angle 0, for every radius `r` and offsets `j`, `k` with
`|r + j| ≤ 2^24` and `|k| ≤ 2^24`, `serial_parametric_x r 0 j = r + j` and
`serial_parametric_y r 0 k = k`, because `serial_cos 0 = 1`, `serial_sin 0 = 0` and
integers of that size are single-precision values; with radius 150 and the
serial offset `(290, 290)`, element 0 of the serial point sequence is
`(440, 290)`. -/
theorem C9_angle_zero_representable (r j k : ℤ) (buf : List (ℝ × ℝ))
    (hrj : |r + j| ≤ 2 ^ 24) (hk : |k| ≤ 2 ^ 24) :
    serial_cos (0 : ℝ) = 1 ∧ serial_sin (0 : ℝ) = 0 ∧
    serial_parametric_x r (0 : ℝ) j = (r : ℝ) + (j : ℝ) ∧
    serial_parametric_y r (0 : ℝ) k = (k : ℝ) ∧
    serial_parametric_x radius (degree_to_radians (0 : ℝ)) (originX - 10) = 440 ∧
    serial_parametric_y radius (degree_to_radians (0 : ℝ)) (originY - 10) = 290 ∧
    (compute_circle_points_serial buf)[0]? = some (440, 290) := by
  have hd : degree_to_radians (0 : ℝ) = 0 := by simp [degree_to_radians]
  have hx : ∀ a b : ℤ, |a + b| ≤ 2 ^ 24 →
      serial_parametric_x a (0 : ℝ) b = (a : ℝ) + (b : ℝ) := by
    intro a b hab
    have h := static_cast_float_intCast (a + b) hab
    push_cast at h
    simp only [serial_parametric_x, serial_cos_zero, mul_one]
    exact h
  have hy : ∀ a b : ℤ, |b| ≤ 2 ^ 24 → serial_parametric_y a (0 : ℝ) b = (b : ℝ) := by
    intro a b hb
    simp only [serial_parametric_y, serial_sin_zero, mul_zero, zero_add]
    exact static_cast_float_intCast b hb
  have h440 : serial_parametric_x radius (0 : ℝ) (originX - 10) = 440 := by
    rw [hx _ _ (by decide)]; norm_num [radius, originX]
  have h290 : serial_parametric_y radius (0 : ℝ) (originY - 10) = 290 := by
    rw [hy _ _ (by decide)]; norm_num [originY]
  refine ⟨serial_cos_zero, serial_sin_zero, hx r j hrj, hy r k hk, ?_, ?_, ?_⟩
  · rw [hd, h440]
  · rw [hd, h290]
  · rw [compute_circle_points_serial_eq, getElem?_map_range _ _ _ (by norm_num)]
    have h0 : ((0 : ℕ) : ℝ) * angle_step = 0 := by simp
    simp only [serial_point, h0, hd, h440, h290]

/-- Witness for the amended C9: radius 150 and the serial offsets 290. -/
theorem C9_angle_zero_representable_witness :
    |(150 : ℤ) + 290| ≤ 2 ^ 24 ∧ |(290 : ℤ)| ≤ 2 ^ 24 ∧
    serial_parametric_x 150 (0 : ℝ) 290 = ((150 : ℤ) : ℝ) + ((290 : ℤ) : ℝ) ∧
    serial_parametric_y 150 (0 : ℝ) 290 = ((290 : ℤ) : ℝ) ∧
    (compute_circle_points_serial ([] : List (ℝ × ℝ)))[0]? = some (440, 290) :=
  ⟨by decide, by decide,
    (C9_angle_zero_representable 150 290 290 [] (by decide) (by decide)).2.2.1,
    (C9_angle_zero_representable 150 290 290 [] (by decide) (by decide)).2.2.2.1,
    (C9_angle_zero_representable 150 290 290 [] (by decide) (by decide)).2.2.2.2.2.2⟩

/-- C10 fails as stated: the serial sampler stores at index 1 the point
`(14417171 / 2^15, 9588502 / 2^15)`, for which
`|(x - 290)^2 + (y - 290)^2 - 150^2|` is about `3.6e-3`, above `1e-3`. -/
theorem C10_counterexample :
    (compute_circle_points_serial ([] : List (ℝ × ℝ)))[1]? =
      some (14417171 / 32768, 9588502 / 32768) ∧
    ¬ (|((14417171 / 32768 : ℝ) - 290) ^ 2 + ((9588502 / 32768 : ℝ) - 290) ^ 2 - 150 ^ 2| ≤
        1e-3) ∧
    (35 / 10 ^ 4 : ℝ) <
      |((14417171 / 32768 : ℝ) - 290) ^ 2 + ((9588502 / 32768 : ℝ) - 290) ^ 2 - 150 ^ 2| := by
  refine ⟨serial_element_one [], ?_, ?_⟩
  · rw [not_le, abs_of_neg (by norm_num)]; norm_num
  · rw [abs_of_neg (by norm_num)]; norm_num

/-- C10 (amended): for every index `i` in `0..360` and every admissible
schedule, the serial point `p` and the parallel point `q` stored at slot `i`
satisfy `|(p.x - 290)^2 + (p.y - 290)^2 - 150^2| ≤ 1e-2`,
`|(q.x - 300)^2 + (q.y - 300)^2 - 150^2| ≤ 1e-2`, and all four coordinates lie in
the viewport `[0, 640]`. -/
theorem C10_points_near_circle_in_viewport (bufS bufP : List (ℝ × ℝ)) (s : Schedule) (i : ℕ)
    (hs : s.admissible) (hi : i ≤ 360) :
    ∃ p q : ℝ × ℝ,
      (compute_circle_points_serial bufS)[i]? = some p ∧
      (compute_circle_points_parallel s bufP)[i]? = some q ∧
      |(p.1 - 290) ^ 2 + (p.2 - 290) ^ 2 - 150 ^ 2| ≤ 1e-2 ∧
      |(q.1 - 300) ^ 2 + (q.2 - 300) ^ 2 - 150 ^ 2| ≤ 1e-2 ∧
      (0 ≤ p.1 ∧ p.1 ≤ 640) ∧ (0 ≤ p.2 ∧ p.2 ≤ 640) ∧
      (0 ≤ q.1 ∧ q.1 ≤ 640) ∧ (0 ≤ q.2 ∧ q.2 ≤ 640) := by
  have hlt : i < 361 := by omega
  have hrun : i < num_points.toNat := by rw [num_points_toNat]; exact hlt
  have hd0 : (0 : ℝ) ≤ (i : ℝ) := Nat.cast_nonneg i
  have hd1 : (i : ℝ) ≤ 360 := by exact_mod_cast hi
  have ht : degree_to_radians (i : ℝ) = (i : ℝ) / 180 * 3.1415926535 := by
    simp only [degree_to_radians]; norm_num
  have hx : |(i : ℝ) / 180 * 3.1415926535| ≤ 63 / 10 := by
    rw [← ht]; exact sample_angle_abs_le _ hd0 hd1
  have hSc := (serial_cos_close _ hx).trans (by norm_num : (1 : ℝ) / 10 ^ 12 ≤ 4 / 10 ^ 9)
  have hSs := (serial_sin_close _ hx).trans (by norm_num : (1 : ℝ) / 10 ^ 12 ≤ 4 / 10 ^ 9)
  have hPc := parallel_cos_close (s.cosRed i) (hs.2 i hrun).1 _ hx
  have hPs := (parallel_sin_close (s.sinRed i) (hs.2 i hrun).2 _ hx).trans
    (by norm_num : (1 : ℝ) / 10 ^ 9 ≤ 4 / 10 ^ 9)
  obtain ⟨_, hS2, hS3⟩ := near_circle _ _ _ _ _ (Real.cos_sq_add_sin_sq _) hSc hSs le_rfl
  obtain ⟨_, hP2, hP3⟩ := near_circle _ _ _ _ _ (Real.cos_sq_add_sin_sq _) hPc hPs le_rfl
  obtain ⟨hS, ⟨hSx0, hSx1⟩, ⟨hSy0, hSy1⟩⟩ :=
    near_circle_rounded _ _ _ _ _ _ 290 (Real.cos_sq_add_sin_sq _) hSc hSs
      (abs_static_cast_float_sub_le _ (abs_lt_512_of_near _ _ hS2 (by norm_num) (by norm_num)))
      (abs_static_cast_float_sub_le _ (abs_lt_512_of_near _ _ hS3 (by norm_num) (by norm_num)))
  obtain ⟨hP, ⟨hPx0, hPx1⟩, ⟨hPy0, hPy1⟩⟩ :=
    near_circle_rounded _ _ _ _ _ _ 300 (Real.cos_sq_add_sin_sq _) hPc hPs
      (abs_static_cast_float_sub_le _ (abs_lt_512_of_near _ _ hP2 (by norm_num) (by norm_num)))
      (abs_static_cast_float_sub_le _ (abs_lt_512_of_near _ _ hP3 (by norm_num) (by norm_num)))
  refine ⟨(static_cast_float (150 * serial_cos (((i : ℝ) / 180) * 3.1415926535) + 290),
      static_cast_float (150 * serial_sin (((i : ℝ) / 180) * 3.1415926535) + 290)),
    (static_cast_float
        (150 * parallel_cos (s.cosRed i) (((i : ℝ) / 180) * 3.1415926535) + 300),
      static_cast_float
        (150 * parallel_sin (s.sinRed i) (((i : ℝ) / 180) * 3.1415926535) + 300)),
    ?_, ?_, hS, hP, ⟨?_, ?_⟩, ⟨?_, ?_⟩, ⟨?_, ?_⟩, ⟨?_, ?_⟩⟩
  · rw [compute_circle_points_serial_eq, getElem?_map_range _ _ _ hlt, serial_point_eq]
  · rw [compute_circle_points_parallel_eq s hs.1, getElem?_map_range _ _ _ hlt,
      parallel_point_eq]
  all_goals simp only; linarith

/-- Witness for the amended C10: index 180 under the backwards schedule. -/
theorem C10_points_near_circle_in_viewport_witness :
    Schedule.backwards.admissible ∧ 180 ≤ 360 ∧
    ∃ p q : ℝ × ℝ,
      (compute_circle_points_serial ([] : List (ℝ × ℝ)))[180]? = some p ∧
      (compute_circle_points_parallel Schedule.backwards ([] : List (ℝ × ℝ)))[180]? = some q ∧
      |(p.1 - 290) ^ 2 + (p.2 - 290) ^ 2 - 150 ^ 2| ≤ 1e-2 ∧
      |(q.1 - 300) ^ 2 + (q.2 - 300) ^ 2 - 150 ^ 2| ≤ 1e-2 ∧
      (0 ≤ p.1 ∧ p.1 ≤ 640) ∧ (0 ≤ p.2 ∧ p.2 ≤ 640) ∧
      (0 ≤ q.1 ∧ q.1 ≤ 640) ∧ (0 ≤ q.2 ∧ q.2 ≤ 640) :=
  ⟨backwards_admissible, by decide,
    C10_points_near_circle_in_viewport [] [] Schedule.backwards 180 backwards_admissible
      (by decide)⟩

end CircleOpenMP
